import Mathlib

/-!
Shallow embedding of the migration engine of an event-sourced datastore
(`datastore/migrations/core/migrater.py`).  Tables are modelled as lists of
row structures; SQL queries become filters, sorts and folds over those lists;
the `MigraterImplementation` methods become state-passing functions that also
emit a trace of the externally visible calls (position processing, event-table
reads, migration-step invocations and keyframe-accessor moves).  Errors
(`MismatchingMigrationIndicesException`, and the `TypeError` that Python's
`max(None, x)` would raise) are made explicit in the result.
-/

namespace Datastore

/-! ## Generic list helpers (SQL `min`, `max`, `order by`) -/

/-- SQL `select min(x) from ...`: `none` on an empty table (SQL NULL). -/
def optMin {α : Type} [LinearOrder α] : List α → Option α
  | [] => none
  | x :: xs =>
    some (match optMin xs with
          | none => x
          | some m => min x m)

/-- SQL `select max(x) from ...`: `none` on an empty table (SQL NULL). -/
def optMax {α : Type} [LinearOrder α] : List α → Option α
  | [] => none
  | x :: xs =>
    some (match optMax xs with
          | none => x
          | some m => max x m)

theorem optMin_eq_none_iff {α : Type} [LinearOrder α] (l : List α) :
    optMin l = none ↔ l = [] := by
  cases l <;> simp [optMin]

theorem optMin_mem {α : Type} [LinearOrder α] {l : List α} {m : α}
    (h : optMin l = some m) : m ∈ l := by
  induction l generalizing m with
  | nil => simp [optMin] at h
  | cons x xs ih =>
    simp only [optMin] at h
    cases hxs : optMin xs with
    | none => rw [hxs] at h; simp at h; simp [h]
    | some m' =>
      rw [hxs] at h
      simp at h
      rcases le_total x m' with hle | hle
      · rw [min_eq_left hle] at h; simp [h]
      · rw [min_eq_right hle] at h
        exact List.mem_cons_of_mem _ (ih (h ▸ hxs))

theorem optMin_le {α : Type} [LinearOrder α] {l : List α} {m : α}
    (h : optMin l = some m) : ∀ x ∈ l, m ≤ x := by
  induction l generalizing m with
  | nil => simp
  | cons y ys ih =>
    intro x hx
    simp only [optMin] at h
    cases hys : optMin ys with
    | none =>
      rw [hys] at h
      simp at h
      rw [optMin_eq_none_iff] at hys
      subst hys
      simp at hx
      simp [hx, h]
    | some m' =>
      rw [hys] at h
      simp at h
      subst h
      rcases List.mem_cons.mp hx with rfl | hx'
      · exact min_le_left _ _
      · exact le_trans (min_le_right _ _) (ih hys x hx')

theorem optMin_isSome_of_mem {α : Type} [LinearOrder α] {l : List α} {x : α}
    (h : x ∈ l) : (optMin l).isSome := by
  cases l with
  | nil => simp at h
  | cons y ys => simp [optMin]

/-- insertion step for `sortByKey` -/
def insertByKey {α : Type} (key : α → Nat) (x : α) : List α → List α
  | [] => [x]
  | y :: ys => if key x ≤ key y then x :: y :: ys else y :: insertByKey key x ys

/-- SQL `order by key asc` via insertion sort (stable enough for primary-key rows). -/
def sortByKey {α : Type} (key : α → Nat) : List α → List α
  | [] => []
  | x :: xs => insertByKey key x (sortByKey key xs)

theorem insertByKey_perm {α : Type} (key : α → Nat) (x : α) (l : List α) :
    List.Perm (insertByKey key x l) (x :: l) := by
  induction l with
  | nil => simp [insertByKey]
  | cons y ys ih =>
    simp only [insertByKey]
    split
    · exact List.Perm.refl _
    · exact ((ih.cons y).trans (List.Perm.swap x y ys))

theorem sortByKey_perm {α : Type} (key : α → Nat) (l : List α) :
    List.Perm (sortByKey key l) l := by
  induction l with
  | nil => simp [sortByKey]
  | cons x xs ih =>
    exact (insertByKey_perm key x (sortByKey key xs)).trans (ih.cons x)

theorem mem_sortByKey {α : Type} (key : α → Nat) (l : List α) (x : α) :
    x ∈ sortByKey key l ↔ x ∈ l :=
  (sortByKey_perm key l).mem_iff

theorem insertByKey_sorted {α : Type} (key : α → Nat) (x : α) (l : List α)
    (h : l.Pairwise (fun a b => key a ≤ key b)) :
    (insertByKey key x l).Pairwise (fun a b => key a ≤ key b) := by
  induction l with
  | nil => simp [insertByKey]
  | cons y ys ih =>
    simp only [insertByKey]
    rcases List.pairwise_cons.mp h with ⟨hy, hys⟩
    split
    · rename_i hxy
      refine List.pairwise_cons.mpr ⟨?_, h⟩
      intro b hb
      rcases List.mem_cons.mp hb with rfl | hb'
      · exact hxy
      · exact le_trans hxy (hy b hb')
    · rename_i hxy
      push_neg at hxy
      refine List.pairwise_cons.mpr ⟨?_, ih hys⟩
      intro b hb
      rcases List.mem_cons.mp ((insertByKey_perm key x ys).mem_iff.mp hb) with h1 | h2
      · subst h1; exact le_of_lt hxy
      · exact hy b h2

theorem sortByKey_sorted {α : Type} (key : α → Nat) (l : List α) :
    (sortByKey key l).Pairwise (fun a b => key a ≤ key b) := by
  induction l with
  | nil => simp [sortByKey]
  | cons x xs ih => exact insertByKey_sorted key x _ ih

theorem mem_of_getLast?_eq {α : Type} {l : List α} {a : α}
    (h : l.getLast? = some a) : a ∈ l := by
  induction l with
  | nil => simp at h
  | cons x xs ih =>
    cases xs with
    | nil => simp [List.getLast?] at h; simp [h]
    | cons y ys =>
      rw [List.getLast?_cons_cons] at h
      exact List.mem_cons_of_mem _ (ih h)

/-- Python `range(a, b)` over integers, as used by
`for source_migration_index in range(migration_index, self.target_migration_index)`. -/
def intRange (a b : Int) : List Int :=
  (List.range (b - a).toNat).map (fun i => a + Int.ofNat i)

theorem intRange_eq_nil_of_le {a b : Int} (h : b ≤ a) : intRange a b = [] := by
  unfold intRange
  have : (b - a).toNat = 0 := by omega
  simp [this]

theorem intRange_append_last {a b : Int} (h : a < b) :
    intRange a b = intRange a (b - 1) ++ [b - 1] := by
  unfold intRange
  have h1 : (b - a).toNat = (b - 1 - a).toNat + 1 := by omega
  rw [h1, List.range_succ, List.map_append]
  simp only [List.map_cons, List.map_nil]
  congr 1
  have h2 : Int.ofNat ((b - 1 - a).toNat) = b - 1 - a := by
    simp only [Int.ofNat_eq_coe]
    omega
  rw [h2]
  congr 1
  omega

theorem map_fst_zip_eq_take {α β : Type} (a : List α) (b : List β) :
    (a.zip b).map Prod.fst = a.take b.length := by
  induction a generalizing b with
  | nil => simp
  | cons x xs ih =>
    cases b with
    | nil => simp
    | cons y ys => simp [List.zip_cons_cons, ih]

/-! ## Data model: table rows and the database state -/

/-- A row of the `positions` table (`RawPosition` in `migrater.py`). -/
structure RawPosition where
  position : Nat
  migration_index : Int
  timestamp : Nat
  user_id : Nat
  information : String
deriving DecidableEq

/-- A row of the `events` / `migration_events` tables:
`(id PK, position, fqid, type, data JSON, weight)`; JSON payloads are opaque. -/
structure EventRow where
  id : Nat
  position : Nat
  fqid : String
  type : String
  data : String
  weight : Nat
deriving DecidableEq

/-- A row of the `migration_positions` table: `position → migration_index`. -/
structure MigrationPositionRow where
  position : Nat
  migration_index : Int
deriving DecidableEq

/-- An event value as produced by a migration step (`BaseEvent`); `data` stands
for the serialized `to_json(event.get_data())` payload. -/
structure BaseEvent where
  fqid : String
  type : String
  data : String
deriving DecidableEq

/-- The `PositionData` handed to migration steps
(`RawPosition.to_position_data` in `migrater.py`). -/
structure PositionData where
  position : Nat
  timestamp : Nat
  user_id : Nat
  information : String
deriving DecidableEq

def RawPosition.to_position_data (p : RawPosition) : PositionData :=
  ⟨p.position, p.timestamp, p.user_id, p.information⟩

/-- The datastore state: the tables touched or read by the migrater.
`keyframes` abstracts the `migration_keyframes` / `migration_keyframe_models`
tables (entries `(position, migration_index)`); `next_event_id` models the
serial primary key of `migration_events`. -/
structure Database where
  positions : List RawPosition
  events : List EventRow
  migration_events : List EventRow
  migration_positions : List MigrationPositionRow
  models : List (String × String)
  keyframes : List (Nat × Int)
  next_event_id : Nat
deriving DecidableEq

/-- Modelled from the spec: `to_event` (in `events.py`, outside the provided
sources) reconstructs the event value from a stored row's `fqid`, `type` and
JSON payload. -/
def to_event (r : EventRow) : BaseEvent :=
  ⟨r.fqid, r.type, r.data⟩

/-- Modelled from the spec: a migration step's full-position rewriter
`migrate(events, old_accessor, new_accessor, position_data) -> list<event>`
(`base_migration.py` is outside the provided sources).  The step is an
arbitrary total function of the step's target migration index, the source
events and the position data; the keyframe accessors are threaded abstractly
(their only persistent effect, committing keyframes, is modelled in
`commitKeyframe`). -/
def Migrations : Type :=
  Int → List BaseEvent → PositionData → List BaseEvent

/-- Modelled from the spec: `move_to_next_position` commits the accumulated
model view as the keyframe at `(current_position, migration_index)`
(`migration_keyframes.py` is outside the provided sources).  Only the write
target matters here: the keyframe tables. -/
def commitKeyframe (db : Database) (p : Nat) (mi : Int) : Database :=
  { db with keyframes := db.keyframes ++ [(p, mi)] }

/-- Errors surfaced by the migrater: the
`MismatchingMigrationIndicesException`, and the `TypeError` Python raises for
`max(None, x)` in `run_actual_migrations`. -/
inductive MigraterError where
  | mismatchingMigrationIndices
  | pyTypeError
deriving DecidableEq

/-- Trace of the externally visible calls of one migrater run. -/
inductive Action where
  | runActualMigrations
  | processPosition (p : Nat)
  | readLiveEvents (p : Nat) (events : List BaseEvent)
  | readStagingEvents (p : Nat) (events : List BaseEvent)
  | runStep (target : Int) (p : Nat)
  | oldMove (mi : Int) (p : Nat)
  | newMove (mi : Int) (p : Nat)
deriving DecidableEq

/-- Result of a migrater entry point: final database, call trace, error (if
the Python code would raise) and the returned `finalizing_needed` flag (only
meaningful when `err = none`). -/
structure Outcome where
  db : Database
  trace : List Action
  err : Option MigraterError
  ret : Bool
deriving DecidableEq

/-- Python `x or d` on an optional integer query result: both `None` and `0`
are falsy, so `0` is replaced by the default as well. -/
def pyOrInt (x : Option Int) (d : Int) : Int :=
  match x with
  | none => d
  | some v => if v = 0 then d else v

/-! ## `MigraterImplementation.write_new_events` -/

/-- One `update migration_events set fqid=%s, type=%s, data=%s, weight=%s
where id=%s` statement. -/
def updateEventRow (rows : List EventRow) (rid : Nat) (e : BaseEvent) (w : Nat) :
    List EventRow :=
  rows.map (fun r =>
    if r.id = rid then { r with fqid := e.fqid, type := e.type, data := e.data, weight := w }
    else r)

/-- The update loop `for i in range(min(len(old_event_ids), len(new_events)))`
of `write_new_events`, walking the zipped `(old id, new event)` pairs with the
weight counter starting at 1 (`weight = i + 1`). -/
def applyEventUpdates (rows : List EventRow) :
    List (Nat × BaseEvent) → Nat → List EventRow
  | [], _ => rows
  | (rid, e) :: rest, w => applyEventUpdates (updateEventRow rows rid e w) rest (w + 1)

/-- The insertion loop `for i in range(len(old_event_ids), len(new_events))`
of `write_new_events`: appends fresh rows (serial ids from `nid`) with
`weight = i + 1`.  Returns the new table and the next serial id. -/
def insertEventRows (p : Nat) :
    List EventRow → Nat → List BaseEvent → Nat → List EventRow × Nat
  | rows, nid, [], _ => (rows, nid)
  | rows, nid, e :: rest, w =>
    insertEventRows p (rows ++ [⟨nid, p, e.fqid, e.type, e.data, w⟩]) (nid + 1) rest (w + 1)

/-- Embeds `MigraterImplementation.write_new_events` (migrater.py lines 277-326):
diff-writes the rewritten events of one position into `migration_events`.
`old_event_ids` comes from `select id from migration_events where position=%s`
— note that this query has no `order by`, so the ids appear in table order. -/
def write_new_events (db : Database) (new_events : List BaseEvent) (position : Nat) :
    Database :=
  let old_event_ids :=
    ((db.migration_events.filter (fun r => r.position = position)).map (fun r => r.id))
  let rows1 := applyEventUpdates db.migration_events (old_event_ids.zip new_events) 1
  let rows2 :=
    if new_events.length < old_event_ids.length then
      rows1.filter (fun r => r.id ∉ old_event_ids.drop new_events.length)
    else rows1
  let ins :=
    if old_event_ids.length < new_events.length then
      insertEventRows position rows2 db.next_event_id
        (new_events.drop old_event_ids.length) (old_event_ids.length + 1)
    else (rows2, db.next_event_id)
  { db with migration_events := ins.1, next_event_id := ins.2 }

/-! ## `MigraterImplementation.migrate_position` -/

/-- The `insert into migration_positions ... on conflict(position) do update`
upsert at the end of `migrate_position`. -/
def upsertMigrationPosition (rows : List MigrationPositionRow) (p : Nat) (mi : Int) :
    List MigrationPositionRow :=
  if rows.any (fun r => r.position = p) then
    rows.map (fun r => if r.position = p then ⟨p, mi⟩ else r)
  else rows ++ [⟨p, mi⟩]

/-- The events handed to a migration step: staging
(`select ... from migration_events where position=%s order by weight asc`) or
live (`select ... from events where position=%s order by weight asc`). -/
def readSourceEvents (db : Database) (p : Nat) (fromStaging : Bool) : List BaseEvent :=
  if fromStaging then
    (sortByKey (fun r => r.weight) (db.migration_events.filter (fun r => r.position = p))).map to_event
  else
    (sortByKey (fun r => r.weight) (db.events.filter (fun r => r.position = p))).map to_event

/-- The database effect of one iteration of the step chain for position `P`
and source index `s`: diff-write the step's output, commit the old accessor's
keyframe, and commit the new accessor's keyframe when this is the last step
(`target_migration_index == self.target_migration_index`). -/
def step_db (m : Migrations) (T : Int) (P : RawPosition) (s : Int) (fromStaging : Bool)
    (db : Database) : Database :=
  let t := s + 1
  let new_events := m t (readSourceEvents db P.position fromStaging) P.to_position_data
  let db1 := write_new_events db new_events P.position
  let db2 := commitKeyframe db1 P.position s
  if t = T then commitKeyframe db2 P.position t else db2

/-- The step-chain loop of `migrate_position` (migrater.py lines 188-229)
over the list of source migration indices `range(migration_index, T)`: each
iteration reads the source events, invokes the migration step, applies the
step's database effect and records the calls. -/
def run_steps (m : Migrations) (T : Int) (P : RawPosition) :
    List Int → Bool → Database → Database × List Action
  | [], _, db => (db, [])
  | s :: rest, fromStaging, db =>
    let t := s + 1
    let is_last := t = T
    let old_events := readSourceEvents db P.position fromStaging
    let readAct :=
      if fromStaging then Action.readStagingEvents P.position old_events
      else Action.readLiveEvents P.position old_events
    let r := run_steps m T P rest true (step_db m T P s fromStaging db)
    (r.1,
      readAct :: Action.runStep t P.position :: Action.oldMove s P.position ::
        ((if is_last then [Action.newMove t P.position] else []) ++ r.2))

/-- Embeds `MigraterImplementation.migrate_position` (migrater.py lines 171-236):
determine source index and event source from `migration_positions`, run the
step chain, then upsert `migration_positions[P] = T`.  `lpv` is
`last_position_value`, consumed only by `get_accessors` (the keyframe
accessors, abstracted into `commitKeyframe`). -/
def migrate_position (m : Migrations) (T : Int) (db : Database) (P : RawPosition)
    (_lpv : Nat) : Database × List Action :=
  let mpRows := db.migration_positions.filter (fun r => r.position = P.position)
  let src :=
    match mpRows with
    | [] => (P.migration_index, false)
    | r :: _ => (r.migration_index, true)
  let r := run_steps m T P (intRange src.1 T) src.2 db
  ({ r.1 with migration_positions := upsertMigrationPosition r.1.migration_positions P.position T },
    r.2)

/-! ## `MigraterImplementation.run_actual_migrations` -/

/-- SQL `select min(position) from positions where migration_index<%s`. -/
def min_position_1 (T : Int) (db : Database) : Option Nat :=
  optMin ((db.positions.filter (fun p => p.migration_index < T)).map (fun p => p.position))

/-- The `min_position_2` computation of `run_actual_migrations`:
`select min(position) from migration_positions where migration_index<%s`, and
when that is NULL the fallback
`select min(position) from positions where position > (select max(position)
from migration_positions)` (NULL when `migration_positions` is empty, since a
comparison against a NULL subquery selects no rows). -/
def min_position_2 (T : Int) (db : Database) : Option Nat :=
  match optMin ((db.migration_positions.filter (fun r => r.migration_index < T)).map
      (fun r => r.position)) with
  | some v => some v
  | none =>
    match optMax (db.migration_positions.map (fun r => r.position)) with
    | none => none
    | some mx => optMin ((db.positions.filter (fun p => mx < p.position)).map
        (fun p => p.position))

/-- SQL `select * from positions where position >= %s order by position asc`;
with a NULL bound (`min_position is None`) no row satisfies the comparison. -/
def migrationCandidates (db : Database) (minp : Option Nat) : List RawPosition :=
  sortByKey (fun p => p.position)
    (db.positions.filter (fun p => match minp with | none => false | some v => v ≤ p.position))

/-- SQL `select * from positions where position < %s order by position desc limit 1`:
the anchor position immediately preceding the start position. -/
def migrationAnchor (db : Database) (minp : Option Nat) : Option RawPosition :=
  (sortByKey (fun p => p.position)
    (db.positions.filter (fun p => match minp with | none => false | some v => p.position < v))).getLast?

/-- The `for _position in positions` loop of `run_actual_migrations`
(migrater.py lines 150-169): per position, the sanity check against the
predecessor (raising `MismatchingMigrationIndicesException` on a rising
migration index, in which case nothing of that position is committed), then
`migrate_position`, then the anchor advances. -/
def processPositions (m : Migrations) (T : Int) :
    List RawPosition → Option RawPosition → Database → Outcome
  | [], _, db => ⟨db, [], none, false⟩
  | p :: rest, lastPos, db =>
    if (match lastPos with
        | some lp => decide (lp.migration_index < p.migration_index)
        | none => false) then
      ⟨db, [], some MigraterError.mismatchingMigrationIndices, false⟩
    else
      let lpv := match lastPos with | none => 0 | some lp => lp.position
      let r := migrate_position m T db p lpv
      let o := processPositions m T rest (some p) r.1
      ⟨o.db, Action.processPosition p.position :: r.2 ++ o.trace, o.err, o.ret⟩

/-- The tail of `run_actual_migrations` once `min_position` is determined. -/
def runFrom (m : Migrations) (T : Int) (db : Database) (minp : Option Nat) : Outcome :=
  let o := processPositions m T (migrationCandidates db minp) (migrationAnchor db minp) db
  { o with trace := Action.runActualMigrations :: o.trace }

/-- Embeds `MigraterImplementation.run_actual_migrations` (migrater.py lines 115-169).
`min_position = max(min_position_1, min_position_2)` when `min_position_2` is
not None — in Python `max(None, x)` raises a `TypeError`, modelled as the
`pyTypeError` outcome. -/
def run_actual_migrations (m : Migrations) (T : Int) (db : Database) : Outcome :=
  match min_position_2 T db, min_position_1 T db with
  | some _, none => ⟨db, [Action.runActualMigrations], some MigraterError.pyTypeError, false⟩
  | some p2, some p1 => runFrom m T db (some (max p1 p2))
  | none, x => runFrom m T db x

/-! ## `MigraterImplementation.migrate` -/

/-- Embeds `MigraterImplementation.migrate` (migrater.py lines 57-113): the decision
table on `(min_mi_positions, count_positions, min_mi_migration_positions,
count_migration_positions)`.  All four quantities go through Python's
`... or default`, so a NULL (empty-table) *and a zero* minimum both become 1. -/
def migrate (m : Migrations) (T : Int) (db : Database) : Outcome :=
  let min_mi_positions := pyOrInt (optMin (db.positions.map (fun p => p.migration_index))) 1
  let count_positions := db.positions.length
  let min_mi_migration_positions :=
    pyOrInt (optMin (db.migration_positions.map (fun r => r.migration_index))) 1
  let count_migration_positions := db.migration_positions.length
  if min_mi_positions = T then
    ⟨db, [], none, false⟩
  else if min_mi_migration_positions = T ∧ count_positions = count_migration_positions then
    ⟨db, [], none, true⟩
  else if min_mi_positions < 1 ∨ min_mi_migration_positions < 1 then
    ⟨db, [], some MigraterError.mismatchingMigrationIndices, false⟩
  else
    let o := run_actual_migrations m T db
    { o with ret := true }

/-! ## Trace observations -/

/-- The positions handed to `migrate_position`, in call order. -/
def processedOf (tr : List Action) : List Nat :=
  tr.filterMap (fun a =>
    match a with
    | Action.processPosition p => some p
    | _ => none)

def Action.isRead : Action → Bool
  | Action.readLiveEvents _ _ => true
  | Action.readStagingEvents _ _ => true
  | _ => false

def Action.isStagingRead : Action → Bool
  | Action.readStagingEvents _ _ => true
  | _ => false

/-- The event-table reads of a trace, in call order. -/
def readsOf (tr : List Action) : List Action :=
  tr.filter Action.isRead

def Action.isChainCall : Action → Bool
  | Action.runStep _ _ => true
  | Action.oldMove _ _ => true
  | Action.newMove _ _ => true
  | _ => false

/-- The step invocations and accessor moves of a trace, in call order. -/
def chainOf (tr : List Action) : List Action :=
  tr.filter Action.isChainCall

/-- Closed form of the step invocations and accessor moves of one step of the
chain for position `P` with source index `s`: invoke `migrations[s+1]`, move
the old accessor, and move the new accessor exactly when `s + 1 = T`. -/
def chainStep (T : Int) (P : Nat) (s : Int) : List Action :=
  Action.runStep (s + 1) P :: Action.oldMove s P ::
    (if s + 1 = T then [Action.newMove (s + 1) P] else [])

/-- Closed form of the chain calls over a list of source indices. -/
def chainSteps (T : Int) (P : Nat) : List Int → List Action
  | [] => []
  | s :: rest => chainStep T P s ++ chainSteps T P rest

/-! ## Concrete fixtures used by witnesses and counterexamples -/

/-- The identity migration chain: every step passes events through unchanged. -/
def idMigrations : Migrations := fun _ evs _ => evs

/-- A datastore with no positions at all. -/
def emptyDb : Database := ⟨[], [], [], [], [], [], 1⟩

/-- A datastore seeded with one position of `migration_index = 0`. -/
def dbC7 : Database := ⟨[⟨1, 0, 0, 0, ""⟩], [], [], [], [], [], 1⟩

/-- Resume state: positions 1 and 2 live at index 1, position 1 already staged
at index 2 (`migration_positions = {1 ↦ 2}`). -/
def dbC1 : Database :=
  ⟨[⟨1, 1, 0, 0, ""⟩, ⟨2, 1, 0, 0, ""⟩], [], [], [⟨1, 2⟩], [], [], 1⟩

/-- A staging table whose physical row order (id 5 first, id 3 second)
disagrees with its weight order (id 3 has weight 1, id 5 has weight 2). -/
def dbC3 : Database :=
  ⟨[], [], [⟨5, 1, "a", "t", "d", 2⟩, ⟨3, 1, "b", "t", "e", 1⟩], [], [], [], 10⟩

/-! ## Frame lemmas: the migrater never writes the live tables -/

/-- The live tables (`positions`, `events`, `models`) of two states agree. -/
def SameLive (a b : Database) : Prop :=
  a.positions = b.positions ∧ a.events = b.events ∧ a.models = b.models

theorem sameLive_refl (a : Database) : SameLive a a := ⟨rfl, rfl, rfl⟩

theorem sameLive_trans {a b c : Database} (h1 : SameLive a b) (h2 : SameLive b c) :
    SameLive a c :=
  ⟨h1.1.trans h2.1, h1.2.1.trans h2.2.1, h1.2.2.trans h2.2.2⟩

theorem write_new_events_live (db : Database) (ne : List BaseEvent) (p : Nat) :
    SameLive (write_new_events db ne p) db ∧
      (write_new_events db ne p).migration_positions = db.migration_positions :=
  ⟨⟨rfl, rfl, rfl⟩, rfl⟩

theorem commitKeyframe_live (db : Database) (p : Nat) (mi : Int) :
    SameLive (commitKeyframe db p mi) db ∧
      (commitKeyframe db p mi).migration_positions = db.migration_positions :=
  ⟨⟨rfl, rfl, rfl⟩, rfl⟩

theorem step_db_live (m : Migrations) (T : Int) (P : RawPosition) (s : Int)
    (fs : Bool) (db : Database) :
    SameLive (step_db m T P s fs db) db ∧
      (step_db m T P s fs db).migration_positions = db.migration_positions := by
  unfold step_db
  dsimp only
  split
  · exact ⟨sameLive_trans (commitKeyframe_live _ _ _).1
      (sameLive_trans (commitKeyframe_live _ _ _).1 (write_new_events_live _ _ _).1),
      ((commitKeyframe_live _ _ _).2).trans
        (((commitKeyframe_live _ _ _).2).trans (write_new_events_live _ _ _).2)⟩
  · exact ⟨sameLive_trans (commitKeyframe_live _ _ _).1 (write_new_events_live _ _ _).1,
      ((commitKeyframe_live _ _ _).2).trans (write_new_events_live _ _ _).2⟩

theorem run_steps_live (m : Migrations) (T : Int) (P : RawPosition) :
    ∀ (sl : List Int) (fs : Bool) (db : Database),
      SameLive (run_steps m T P sl fs db).1 db ∧
        (run_steps m T P sl fs db).1.migration_positions = db.migration_positions := by
  intro sl
  induction sl with
  | nil => intro fs db; exact ⟨sameLive_refl db, rfl⟩
  | cons s rest ih =>
    intro fs db
    simp only [run_steps]
    exact ⟨sameLive_trans (ih true _).1 (step_db_live m T P s fs db).1,
      ((ih true _).2).trans (step_db_live m T P s fs db).2⟩

theorem migrate_position_live (m : Migrations) (T : Int) (db : Database)
    (P : RawPosition) (lpv : Nat) :
    SameLive (migrate_position m T db P lpv).1 db := by
  unfold migrate_position
  exact (run_steps_live m T P _ _ db).1

theorem processPositions_live (m : Migrations) (T : Int) :
    ∀ (l : List RawPosition) (a0 : Option RawPosition) (db : Database),
      SameLive (processPositions m T l a0 db).db db := by
  intro l
  induction l with
  | nil => intro a0 db; exact sameLive_refl db
  | cons p rest ih =>
    intro a0 db
    simp only [processPositions]
    split
    · exact sameLive_refl db
    · exact sameLive_trans (ih (some p) _) (migrate_position_live m T db p _)

theorem run_actual_migrations_live (m : Migrations) (T : Int) (db : Database) :
    SameLive (run_actual_migrations m T db).db db := by
  unfold run_actual_migrations
  split
  · exact sameLive_refl db
  · exact processPositions_live m T _ _ db
  · exact processPositions_live m T _ _ db

/-! ## Trace shape of the step chain -/

theorem run_steps_mem_trace (m : Migrations) (T : Int) (P : RawPosition) :
    ∀ (sl : List Int) (fs : Bool) (db : Database) (a : Action),
      a ∈ (run_steps m T P sl fs db).2 →
        (Action.isRead a || Action.isChainCall a) = true := by
  intro sl
  induction sl with
  | nil => intro fs db a h; simp [run_steps] at h
  | cons s rest ih =>
    intro fs db a h
    simp only [run_steps, List.mem_cons, List.mem_append] at h
    rcases h with rfl | rfl | rfl | h | h
    · cases fs <;> rfl
    · rfl
    · rfl
    · by_cases hlast : s + 1 = T
      · rw [if_pos hlast] at h
        simp only [List.mem_singleton] at h
        subst h
        rfl
      · rw [if_neg hlast] at h
        simp at h
    · exact ih true _ a h

theorem processedOf_append (t1 t2 : List Action) :
    processedOf (t1 ++ t2) = processedOf t1 ++ processedOf t2 := by
  simp [processedOf]

theorem processedOf_eq_nil {tr : List Action}
    (h : ∀ a ∈ tr, (Action.isRead a || Action.isChainCall a) = true) :
    processedOf tr = [] := by
  unfold processedOf
  rw [List.filterMap_eq_nil_iff]
  intro a ha
  cases a <;> first | rfl | (exact absurd (h _ ha) (by simp [Action.isRead, Action.isChainCall]))

theorem run_steps_trace_no_position (m : Migrations) (T : Int) (P : RawPosition)
    (sl : List Int) (fs : Bool) (db : Database) :
    processedOf (run_steps m T P sl fs db).2 = [] :=
  processedOf_eq_nil (run_steps_mem_trace m T P sl fs db)

theorem processedOf_migrate_position (m : Migrations) (T : Int) (db : Database)
    (P : RawPosition) (lpv : Nat) :
    processedOf (migrate_position m T db P lpv).2 = [] := by
  unfold migrate_position
  exact run_steps_trace_no_position m T P _ _ db

theorem chainOf_run_steps (m : Migrations) (T : Int) (P : RawPosition) :
    ∀ (sl : List Int) (fs : Bool) (db : Database),
      chainOf (run_steps m T P sl fs db).2 = chainSteps T P.position sl := by
  intro sl
  induction sl with
  | nil => intro fs db; rfl
  | cons s rest ih =>
    intro fs db
    cases fs <;>
      · simp only [run_steps]
        by_cases hlast : s + 1 = T <;>
          simp [hlast, chainOf, chainSteps, chainStep, List.filter_cons, List.filter_append,
            Action.isChainCall, Action.isRead, ih true, chainOf] <;>
          simpa [chainOf] using ih true _

/-! ## The position loop: completion and error splitting -/

/-- The predecessor of the next processed position: the last element of the
already processed list, or the anchor when nothing was processed yet. -/
def lastBefore (a0 : Option RawPosition) (l : List RawPosition) : Option RawPosition :=
  match l.getLast? with
  | some x => some x
  | none => a0

theorem lastBefore_cons (a0 : Option RawPosition) (x : RawPosition) (l : List RawPosition) :
    lastBefore a0 (x :: l) = lastBefore (some x) l := by
  cases l with
  | nil => rfl
  | cons y ys =>
    simp only [lastBefore, List.getLast?_cons_cons]
    cases hg : (y :: ys).getLast? with
    | none => rw [List.getLast?_eq_none_iff] at hg; cases hg
    | some z => rfl

theorem processedOf_cons_process (p : Nat) (tr : List Action) :
    processedOf (Action.processPosition p :: tr) = p :: processedOf tr := by
  simp [processedOf, List.filterMap_cons]

theorem processPositions_ok (m : Migrations) (T : Int) :
    ∀ (l : List RawPosition) (a0 : Option RawPosition) (db : Database),
      (∀ lp, a0 = some lp → ∀ q ∈ l, q.migration_index ≤ lp.migration_index) →
      l.Pairwise (fun a b => b.migration_index ≤ a.migration_index) →
      (processPositions m T l a0 db).err = none ∧
        processedOf (processPositions m T l a0 db).trace
          = l.map (fun p => p.position) := by
  intro l
  induction l with
  | nil => intro a0 db h1 h2; exact ⟨rfl, rfl⟩
  | cons p rest ih =>
    intro a0 db h1 h2
    have hanchor : ∀ q ∈ rest, q.migration_index ≤ p.migration_index :=
      fun q hq => (List.pairwise_cons.mp h2).1 q hq
    have hpair := (List.pairwise_cons.mp h2).2
    have hnext : ∀ (d : Database),
        (processPositions m T rest (some p) d).err = none ∧
          processedOf (processPositions m T rest (some p) d).trace
            = rest.map (fun r => r.position) := by
      intro d
      refine ih (some p) d (fun lp hlp q hq => ?_) hpair
      injection hlp with h
      exact h ▸ hanchor q hq
    cases a0 with
    | none =>
      simp only [processPositions, Bool.false_eq_true, if_false]
      refine ⟨(hnext _).1, ?_⟩
      simp only [processedOf_cons_process, processedOf_append,
        processedOf_migrate_position,
        (hnext (migrate_position m T db p 0).1).2]
      simp
    | some lp =>
      have hlt : ¬ lp.migration_index < p.migration_index :=
        not_lt.mpr (h1 lp rfl p (List.mem_cons_self p rest))
      simp only [processPositions, decide_eq_false hlt, Bool.false_eq_true, if_false]
      refine ⟨(hnext _).1, ?_⟩
      simp only [processedOf_cons_process, processedOf_append,
        processedOf_migrate_position,
        (hnext (migrate_position m T db p lp.position).1).2]
      simp

theorem processPositions_split (m : Migrations) (T : Int)
    (p : RawPosition) (l2 : List RawPosition) :
    ∀ (l1 : List RawPosition) (a0 : Option RawPosition) (db : Database) (q : RawPosition),
      lastBefore a0 l1 = some q →
      q.migration_index < p.migration_index →
      (processPositions m T l1 a0 db).err = none →
      (processPositions m T (l1 ++ p :: l2) a0 db).db
          = (processPositions m T l1 a0 db).db ∧
        (processPositions m T (l1 ++ p :: l2) a0 db).trace
          = (processPositions m T l1 a0 db).trace ∧
        (processPositions m T (l1 ++ p :: l2) a0 db).err
          = some MigraterError.mismatchingMigrationIndices := by
  intro l1
  induction l1 with
  | nil =>
    intro a0 db q hlast hrise _
    have ha0 : a0 = some q := hlast
    subst ha0
    simp [processPositions, decide_eq_true hrise]
  | cons x rest ih =>
    intro a0 db q hlast hrise herr
    rw [lastBefore_cons] at hlast
    cases a0 with
    | none =>
      simp only [List.cons_append, List.append_eq, processPositions, Bool.false_eq_true,
        if_false] at herr ⊢
      have h := ih (some x) (migrate_position m T db x 0).1 q hlast hrise herr
      exact ⟨h.1, by rw [h.2.1], h.2.2⟩
    | some lp =>
      by_cases hc : lp.migration_index < x.migration_index
      · exfalso
        simp only [processPositions, decide_eq_true hc, if_true] at herr
        exact Option.some_ne_none _ herr
      · simp only [List.cons_append, List.append_eq, processPositions, decide_eq_false hc,
          Bool.false_eq_true, if_false] at herr ⊢
        have h := ih (some x) (migrate_position m T db x lp.position).1 q hlast hrise herr
        exact ⟨h.1, by rw [h.2.1], h.2.2⟩

/-! ## Valid states: spec invariants that make runs complete -/

/-- The spec's standing invariants on the live `positions` table used below:
the migration index never rises with increasing position, and `position` is a
primary key. -/
def MonotonePositions (db : Database) : Prop :=
  (∀ p ∈ db.positions, ∀ q ∈ db.positions,
      p.position < q.position → q.migration_index ≤ p.migration_index) ∧
  (db.positions.map (fun p => p.position)).Nodup

theorem nodup_sortByKey_filter {α : Type} (key : α → Nat) (pred : α → Bool)
    (l : List α) (h : (l.map key).Nodup) :
    ((sortByKey key (l.filter pred)).map key).Nodup := by
  have hperm := (sortByKey_perm key (l.filter pred)).map key
  exact hperm.nodup_iff.mpr (((List.filter_sublist l).map key).nodup h)

theorem mem_migrationCandidates {db : Database} {minp : Option Nat} {x : RawPosition}
    (h : x ∈ migrationCandidates db minp) : x ∈ db.positions := by
  unfold migrationCandidates at h
  exact List.mem_of_mem_filter ((mem_sortByKey _ _ _).mp h)

theorem bound_migrationCandidates {db : Database} {v : Nat} {x : RawPosition}
    (h : x ∈ migrationCandidates db (some v)) : v ≤ x.position := by
  unfold migrationCandidates at h
  have := List.of_mem_filter ((mem_sortByKey _ _ _).mp h)
  simpa using this

theorem pairwise_migrationCandidates (db : Database) (minp : Option Nat)
    (hmono : MonotonePositions db) :
    (migrationCandidates db minp).Pairwise
      (fun a b => b.migration_index ≤ a.migration_index) := by
  have hsorted : (migrationCandidates db minp).Pairwise
      (fun a b => a.position ≤ b.position) := sortByKey_sorted _ _
  have hsub : ((migrationCandidates db minp).map (fun p => p.position)).Nodup := by
    unfold migrationCandidates
    exact nodup_sortByKey_filter _ _ _ hmono.2
  have hne : (migrationCandidates db minp).Pairwise
      (fun a b => a.position ≠ b.position) := List.pairwise_map.mp hsub
  refine (hsorted.and hne).imp_of_mem ?_
  intro a b ha hb hab
  exact hmono.1 a (mem_migrationCandidates ha) b (mem_migrationCandidates hb)
    (lt_of_le_of_ne hab.1 hab.2)

theorem migrationAnchor_spec {db : Database} {minp : Option Nat} {lp : RawPosition}
    (h : migrationAnchor db minp = some lp) :
    lp ∈ db.positions ∧ ∃ v, minp = some v ∧ lp.position < v := by
  unfold migrationAnchor at h
  have hmem := mem_of_getLast?_eq h
  have hmem2 := (mem_sortByKey _ _ _).mp hmem
  refine ⟨List.mem_of_mem_filter hmem2, ?_⟩
  have hfilter := List.of_mem_filter hmem2
  cases minp with
  | none => simp at hfilter
  | some v => exact ⟨v, rfl, by simpa using hfilter⟩

theorem migrationAnchor_dominates (db : Database) (minp : Option Nat)
    (hmono : MonotonePositions db) :
    ∀ lp, migrationAnchor db minp = some lp →
      ∀ q ∈ migrationCandidates db minp, q.migration_index ≤ lp.migration_index := by
  intro lp hlp q hq
  obtain ⟨hlpmem, v, rfl, hlt⟩ := migrationAnchor_spec hlp
  exact hmono.1 lp hlpmem q (mem_migrationCandidates hq)
    (lt_of_lt_of_le hlt (bound_migrationCandidates hq))

/-- Completion of `runFrom`: under the monotone-index invariant the loop
commits every candidate position in ascending order without an error. -/
theorem runFrom_ok (m : Migrations) (T : Int) (db : Database) (minp : Option Nat)
    (hmono : MonotonePositions db) :
    (runFrom m T db minp).err = none ∧
      processedOf (runFrom m T db minp).trace
        = (migrationCandidates db minp).map (fun p => p.position) := by
  have h := processPositions_ok m T (migrationCandidates db minp)
    (migrationAnchor db minp) db
    (migrationAnchor_dominates db minp hmono)
    (pairwise_migrationCandidates db minp hmono)
  unfold runFrom
  refine ⟨h.1, ?_⟩
  simpa [processedOf, List.filterMap_cons] using h.2

theorem processPositions_err_cases (m : Migrations) (T : Int) :
    ∀ (l : List RawPosition) (a0 : Option RawPosition) (db : Database),
      (processPositions m T l a0 db).err = none ∨
        (processPositions m T l a0 db).err
          = some MigraterError.mismatchingMigrationIndices := by
  intro l
  induction l with
  | nil => intro a0 db; left; rfl
  | cons p rest ih =>
    intro a0 db
    simp only [processPositions]
    split
    · right; rfl
    · exact ih (some p) _

theorem migrate_db_eq (m : Migrations) (T : Int) (db : Database) :
    (migrate m T db).db = db ∨ (migrate m T db).db = (run_actual_migrations m T db).db := by
  unfold migrate
  dsimp only
  split
  · left; rfl
  · split
    · left; rfl
    · split
      · left; rfl
      · right; rfl

/-- The start-state computation of `run_actual_migrations` yields `none` when
`migration_positions` is empty and `positions` has no row below the target. -/
theorem min_position_2_none_of_no_mp (T : Int) (db : Database)
    (h : db.migration_positions = []) : min_position_2 T db = none := by
  unfold min_position_2
  rw [h]
  rfl

/-- Core of the unreachability argument: under the spec's containment and
bound invariants, dispatching past the `min_mi_positions == T` no-op row
forces `min_position_1` to be non-NULL whenever `min_position_2` is. -/
theorem min_position_1_isSome_of_min_position_2 (T : Int) (db : Database)
    (hsub : ∀ r ∈ db.migration_positions, ∃ p ∈ db.positions, p.position = r.position)
    (hbound : ∀ p ∈ db.positions, p.migration_index ≤ T)
    (hT : 1 ≤ T)
    (hb1 : pyOrInt (optMin (db.positions.map (fun p => p.migration_index))) 1 ≠ T)
    (h2 : (min_position_2 T db).isSome) :
    (min_position_1 T db).isSome := by
  by_contra hnone
  rw [Option.not_isSome_iff_eq_none] at hnone
  unfold min_position_1 at hnone
  rw [optMin_eq_none_iff, List.map_eq_nil_iff, List.filter_eq_nil_iff] at hnone
  cases hpos : db.positions with
  | nil =>
    have hmp : db.migration_positions = [] := by
      cases hmp' : db.migration_positions with
      | nil => rfl
      | cons r rs =>
        obtain ⟨p, hp, _⟩ := hsub r (by rw [hmp']; exact List.mem_cons_self r rs)
        rw [hpos] at hp
        cases hp
    rw [min_position_2_none_of_no_mp T db hmp] at h2
    simp at h2
  | cons p0 ps =>
    have hmem : p0.migration_index ∈ db.positions.map (fun p => p.migration_index) := by
      rw [hpos]; exact List.mem_map_of_mem _ (List.mem_cons_self p0 ps)
    obtain ⟨mv, hmv⟩ := Option.isSome_iff_exists.mp (optMin_isSome_of_mem hmem)
    have hmv_mem := optMin_mem hmv
    obtain ⟨pw, hpw, hpw2⟩ := List.mem_map.mp hmv_mem
    have hge : T ≤ pw.migration_index := by
      have := hnone pw hpw
      simp only [decide_eq_true_eq] at this
      omega
    have hle : pw.migration_index ≤ T := hbound pw hpw
    have hvT : mv = T := by omega
    apply hb1
    rw [hmv, hvT]
    unfold pyOrInt
    simp only
    rw [if_neg (by omega)]

/-- C10: with the dispatch row `min_mi_positions == T` excluded and the
spec's invariants (every `migration_positions` row references a live position,
live migration indices are at most the target, the target is at least 1),
`min_position_2` non-NULL forces `min_position_1` non-NULL, so the Python
`max(None, ...)` `TypeError` branch of `run_actual_migrations` is unreachable. -/
theorem c10_start_position_total (m : Migrations) (T : Int) (db : Database)
    (hsub : ∀ r ∈ db.migration_positions, ∃ p ∈ db.positions, p.position = r.position)
    (hbound : ∀ p ∈ db.positions, p.migration_index ≤ T)
    (hT : 1 ≤ T)
    (hb1 : pyOrInt (optMin (db.positions.map (fun p => p.migration_index))) 1 ≠ T) :
    (run_actual_migrations m T db).err ≠ some MigraterError.pyTypeError ∧
      ((min_position_2 T db).isSome → (min_position_1 T db).isSome) := by
  have himp : (min_position_2 T db).isSome → (min_position_1 T db).isSome :=
    min_position_1_isSome_of_min_position_2 T db hsub hbound hT hb1
  refine ⟨?_, himp⟩
  have hgen : ∀ (L : List RawPosition) (A : Option RawPosition),
      (processPositions m T L A db).err ≠ some MigraterError.pyTypeError := by
    intro L A
    rcases processPositions_err_cases m T L A db with h | h <;> simp [h]
  unfold run_actual_migrations
  split
  · rename_i h2 h1
    exfalso
    have := himp (by rw [h2]; rfl)
    rw [h1] at this
    simp at this
  · unfold runFrom
    exact hgen _ _
  · unfold runFrom
    exact hgen _ _

/-- Witness for C10 at a concrete resume state. -/
theorem c10_start_position_total_witness :
    (pyOrInt (optMin (dbC1.positions.map (fun p => p.migration_index))) 1 ≠ 2) ∧
      ((run_actual_migrations idMigrations 2 dbC1).err ≠ some MigraterError.pyTypeError ∧
        ((min_position_2 2 dbC1).isSome → (min_position_1 2 dbC1).isSome)) :=
  ⟨by decide,
    c10_start_position_total idMigrations 2 dbC1 (by decide) (by decide) (by decide)
      (by decide)⟩

/-- C9: a `migrate` run writes only the staging tables (`migration_events`,
`migration_positions`, keyframes); the `positions`, `events` and `models`
tables are unchanged, also when the run ends in an error. -/
theorem c9_migrate_frame (m : Migrations) (T : Int) (db : Database) :
    (migrate m T db).db.positions = db.positions ∧
      (migrate m T db).db.events = db.events ∧
      (migrate m T db).db.models = db.models := by
  rcases migrate_db_eq m T db with h | h
  · rw [h]; exact ⟨rfl, rfl, rfl⟩
  · rw [h]
    exact run_actual_migrations_live m T db

/-! ## C1: which positions a run processes -/

/-- The start position as the words of claim C1 prescribe it: the *minimum*
of the two components (`run_actual_migrations` in the source combines them
with `max`).  Declared only to be compared against the embedded code. -/
def claimC1_start (T : Int) (db : Database) : Option Nat :=
  match min_position_2 T db, min_position_1 T db with
  | some p2, some p1 => some (min p1 p2)
  | none, x => x
  | some p2, none => some p2

/-- C1 counterexample: in the resume state `dbC1` (positions 1,2 live at
index 1, position 1 already staged at target 2) the claimed start position is
`min(1,2) = 1`, so the claim predicts that positions ≥ 1, i.e. `[1, 2]`, are
processed; the code processes exactly `[2]`. -/
theorem c1_counterexample :
    claimC1_start 2 dbC1 = some 1 ∧
      (migrationCandidates dbC1 (claimC1_start 2 dbC1)).map (fun p => p.position)
        = [1, 2] ∧
      processedOf (run_actual_migrations idMigrations 2 dbC1).trace = [2] := by
  decide

/-- C1 (amended): whenever some live position has `migration_index < T`
(`min_position_1` non-NULL) and the spec's monotone-index invariant holds,
`run_actual_migrations` processes exactly the positions `P ≥ start_position`
in ascending order, where `start_position` is the *maximum* of
`min_position_1` and `min_position_2` when the latter exists, else
`min_position_1`. -/
theorem c1_processed_positions (m : Migrations) (T : Int) (db : Database) (p1 : Nat)
    (h1 : min_position_1 T db = some p1)
    (hmono : MonotonePositions db) :
    (run_actual_migrations m T db).err = none ∧
      processedOf (run_actual_migrations m T db).trace
        = (migrationCandidates db (some (match min_position_2 T db with
            | some p2 => max p1 p2
            | none => p1))).map (fun p => p.position) ∧
      List.Pairwise (fun a b => a ≤ b)
        (processedOf (run_actual_migrations m T db).trace) := by
  have hsym : ∀ (minp : Option Nat),
      (runFrom m T db minp).err = none ∧
        processedOf (runFrom m T db minp).trace
          = (migrationCandidates db minp).map (fun p => p.position) ∧
        List.Pairwise (fun a b => a ≤ b)
          (processedOf (runFrom m T db minp).trace) := by
    intro minp
    obtain ⟨he, hp⟩ := runFrom_ok m T db minp hmono
    refine ⟨he, hp, ?_⟩
    rw [hp]
    unfold migrationCandidates
    exact List.pairwise_map.mpr (sortByKey_sorted _ _)
  cases h2 : min_position_2 T db with
  | none =>
    unfold run_actual_migrations
    rw [h1, h2]
    exact hsym (some p1)
  | some p2 =>
    unfold run_actual_migrations
    rw [h1, h2]
    exact hsym (some (max p1 p2))

/-- Witness for C1 at the resume state `dbC1`. -/
theorem c1_processed_positions_witness :
    min_position_1 2 dbC1 = some 1 ∧
      ((run_actual_migrations idMigrations 2 dbC1).err = none ∧
        processedOf (run_actual_migrations idMigrations 2 dbC1).trace
          = (migrationCandidates dbC1 (some (match min_position_2 2 dbC1 with
              | some p2 => max 1 p2
              | none => 1))).map (fun p => p.position) ∧
        List.Pairwise (fun a b => a ≤ b)
          (processedOf (run_actual_migrations idMigrations 2 dbC1).trace)) :=
  ⟨by decide, c1_processed_positions idMigrations 2 dbC1 1 (by decide)
    ⟨by decide, by decide⟩⟩

/-! ## C7 / C8: the decision table of `migrate` on degenerate states -/

/-- C7: seeding `positions` with a single row of `migration_index = 0` and
calling `migrate(2)` does **not** raise `MismatchingMigrationIndices`:
Python's `query_single_value(...) or 1` turns the minimum `0` into `1`
(0 is falsy), so the `< 1` guard never sees it and the Position Migrator
runs instead. -/
theorem c7_zero_migration_index_not_caught :
    (migrate idMigrations 2 dbC7).err = none ∧
      Action.runActualMigrations ∈ (migrate idMigrations 2 dbC7).trace ∧
      dbC7.positions.map (fun p => p.migration_index) = [0] := by
  decide

/-- C8 counterexample: on a datastore with no positions at all,
`migrate(T=5)` returns `true` (the minimum over the empty table is turned
into 1 by `... or 1`, which differs from 5, so the run falls into the
"run migrations" row), not `false` as claimed. -/
theorem c8_counterexample :
    (migrate idMigrations 5 emptyDb).ret ≠ false ∧
      (migrate idMigrations 5 emptyDb).err = none ∧
      emptyDb.positions = [] := by
  decide

/-- C8 (amended): on a datastore with no positions (and hence no staged
positions), `migrate(T=5)` returns **true** without an error, and the
`models` table is left unchanged (in particular it remains empty). -/
theorem c8_empty_db (m : Migrations) (db : Database)
    (hpos : db.positions = [])
    (hmp : db.migration_positions = []) :
    (migrate m 5 db).err = none ∧ (migrate m 5 db).ret = true ∧
      (migrate m 5 db).db.models = db.models := by
  have hmp1 : min_position_1 5 db = none := by
    unfold min_position_1
    rw [hpos]
    rfl
  have hmp2 : min_position_2 5 db = none := min_position_2_none_of_no_mp 5 db hmp
  have hrun : run_actual_migrations m 5 db
      = ⟨db, [Action.runActualMigrations], none, false⟩ := by
    unfold run_actual_migrations
    rw [hmp1, hmp2]
    show runFrom m 5 db none = _
    unfold runFrom migrationCandidates migrationAnchor
    rw [hpos]
    rfl
  unfold migrate
  rw [hpos, hmp]
  simp only [List.map_nil, List.length_nil]
  norm_num [optMin, pyOrInt]
  simp [hrun]

/-- Witness for C8 at the literal empty datastore. -/
theorem c8_empty_db_witness :
    emptyDb.positions = [] ∧
      ((migrate idMigrations 5 emptyDb).err = none ∧
        (migrate idMigrations 5 emptyDb).ret = true ∧
        (migrate idMigrations 5 emptyDb).db.models = emptyDb.models) :=
  ⟨by decide, c8_empty_db idMigrations emptyDb (by decide) (by decide)⟩

/-! ## C2: the decision table of `migrate` on valid states -/

/-- Valid datastore state per the spec's invariants: migration indices of both
tables lie in `[1, T]`, every staged position references a live position, the
live table satisfies the monotone-index and primary-key invariants, and the
target is at least 1. -/
def ValidState (T : Int) (db : Database) : Prop :=
  (∀ p ∈ db.positions, 1 ≤ p.migration_index ∧ p.migration_index ≤ T) ∧
  (∀ r ∈ db.migration_positions, 1 ≤ r.migration_index ∧ r.migration_index ≤ T) ∧
  (∀ r ∈ db.migration_positions, ∃ p ∈ db.positions, p.position = r.position) ∧
  MonotonePositions db ∧ 1 ≤ T

theorem pyOrInt_min_ge_one {l : List Int} (h : ∀ x ∈ l, 1 ≤ x) :
    1 ≤ pyOrInt (optMin l) 1 := by
  cases hl : optMin l with
  | none => simp [pyOrInt]
  | some w =>
    have := h w (optMin_mem hl)
    unfold pyOrInt
    simp only
    rw [if_neg (by omega)]
    omega

theorem pyOrInt_min_eq_iff {l : List Int} {T : Int} (h : ∀ x ∈ l, 1 ≤ x)
    (hl : l ≠ []) : pyOrInt (optMin l) 1 = T ↔ optMin l = some T := by
  cases hopt : optMin l with
  | none => exact absurd (optMin_eq_none_iff l |>.mp hopt) hl
  | some w =>
    have hw := h w (optMin_mem hopt)
    unfold pyOrInt
    simp only
    rw [if_neg (by omega)]
    constructor
    · intro hh; rw [hh]
    · intro hh; injection hh

/-- The function `migrate` written as its four-branch decision table (definitional). -/
theorem migrate_branches (m : Migrations) (T : Int) (db : Database) :
    migrate m T db =
      (if pyOrInt (optMin (db.positions.map (fun p => p.migration_index))) 1 = T then
        (⟨db, [], none, false⟩ : Outcome)
      else if pyOrInt (optMin (db.migration_positions.map
            (fun r => r.migration_index))) 1 = T
          ∧ db.positions.length = db.migration_positions.length then
        ⟨db, [], none, true⟩
      else if pyOrInt (optMin (db.positions.map (fun p => p.migration_index))) 1 < 1
          ∨ pyOrInt (optMin (db.migration_positions.map
              (fun r => r.migration_index))) 1 < 1 then
        ⟨db, [], some MigraterError.mismatchingMigrationIndices, false⟩
      else
        { run_actual_migrations m T db with ret := true }) := rfl

theorem run_actual_marker (m : Migrations) (T : Int) (db : Database) :
    Action.runActualMigrations ∈ (run_actual_migrations m T db).trace := by
  unfold run_actual_migrations
  split
  · exact List.mem_cons_self _ _
  · unfold runFrom
    exact List.mem_cons_self _ _
  · unfold runFrom
    exact List.mem_cons_self _ _

theorem run_actual_err_none (m : Migrations) (T : Int) (db : Database)
    (hsub : ∀ r ∈ db.migration_positions, ∃ p ∈ db.positions, p.position = r.position)
    (hbound : ∀ p ∈ db.positions, p.migration_index ≤ T)
    (hT : 1 ≤ T)
    (hb1 : pyOrInt (optMin (db.positions.map (fun p => p.migration_index))) 1 ≠ T)
    (hmono : MonotonePositions db) :
    (run_actual_migrations m T db).err = none := by
  unfold run_actual_migrations
  split
  · rename_i h2 h1
    exfalso
    have := min_position_1_isSome_of_min_position_2 T db hsub hbound hT hb1
      (by rw [h2]; rfl)
    rw [h1] at this
    simp at this
  · exact (runFrom_ok m T db _ hmono).1
  · exact (runFrom_ok m T db _ hmono).1

/-- C2: on every valid state with at least one position, `migrate` returns
false exactly when the minimum migration index of `positions` is the target;
it returns true without dispatching to the Position Migrator exactly when
(that first row does not apply and) the minimum migration index of
`migration_positions` is the target and the row counts agree; in every other
case it dispatches to the Position Migrator and returns true without error. -/
theorem c2_decision_table (m : Migrations) (T : Int) (db : Database)
    (hv : ValidState T db) (hne : db.positions ≠ []) :
    (((migrate m T db).err = none ∧ (migrate m T db).ret = false) ↔
        optMin (db.positions.map (fun p => p.migration_index)) = some T) ∧
      (((migrate m T db).err = none ∧ (migrate m T db).ret = true ∧
          Action.runActualMigrations ∉ (migrate m T db).trace) ↔
        (optMin (db.positions.map (fun p => p.migration_index)) ≠ some T ∧
          optMin (db.migration_positions.map (fun r => r.migration_index)) = some T ∧
          db.positions.length = db.migration_positions.length)) ∧
      ((optMin (db.positions.map (fun p => p.migration_index)) ≠ some T ∧
          ¬(optMin (db.migration_positions.map (fun r => r.migration_index)) = some T ∧
            db.positions.length = db.migration_positions.length)) →
        ((migrate m T db).err = none ∧ (migrate m T db).ret = true ∧
          Action.runActualMigrations ∈ (migrate m T db).trace)) := by
  obtain ⟨hposB, hmpB, hsub, hmono, hT⟩ := hv
  have hmapne : db.positions.map (fun p => p.migration_index) ≠ [] := by
    intro hh
    exact hne (List.map_eq_nil_iff.mp hh)
  have hpos1 : ∀ x ∈ db.positions.map (fun p => p.migration_index), 1 ≤ x := by
    intro x hx
    obtain ⟨q, hq, rfl⟩ := List.mem_map.mp hx
    exact (hposB q hq).1
  have hmp1 : ∀ x ∈ db.migration_positions.map (fun r => r.migration_index), 1 ≤ x := by
    intro x hx
    obtain ⟨q, hq, rfl⟩ := List.mem_map.mp hx
    exact (hmpB q hq).1
  have hF1 := pyOrInt_min_eq_iff (T := T) hpos1 hmapne
  have hF2 : (pyOrInt (optMin (db.migration_positions.map
        (fun r => r.migration_index))) 1 = T
        ∧ db.positions.length = db.migration_positions.length)
      ↔ (optMin (db.migration_positions.map (fun r => r.migration_index)) = some T
        ∧ db.positions.length = db.migration_positions.length) := by
    by_cases hmp : db.migration_positions = []
    · rw [hmp]
      simp only [List.map_nil, List.length_nil]
      constructor
      · rintro ⟨h1, h2⟩
        exact absurd (List.length_eq_zero.mp h2) hne
      · rintro ⟨h1, h2⟩
        exact absurd h1 (by simp [optMin])
    · have hmpne : db.migration_positions.map (fun r => r.migration_index) ≠ [] := by
        intro hh
        exact hmp (List.map_eq_nil_iff.mp hh)
      rw [pyOrInt_min_eq_iff hmp1 hmpne]
  have hF3 : ¬(pyOrInt (optMin (db.positions.map (fun p => p.migration_index))) 1 < 1
      ∨ pyOrInt (optMin (db.migration_positions.map
          (fun r => r.migration_index))) 1 < 1) := by
    push_neg
    exact ⟨pyOrInt_min_ge_one hpos1, pyOrInt_min_ge_one hmp1⟩
  by_cases hc1 : pyOrInt (optMin (db.positions.map (fun p => p.migration_index))) 1 = T
  · have hmig : migrate m T db = ⟨db, [], none, false⟩ := by
      rw [migrate_branches, if_pos hc1]
    rw [hmig]
    refine ⟨?_, ?_, ?_⟩
    · constructor
      · intro _; exact hF1.mp hc1
      · intro _; exact ⟨rfl, rfl⟩
    · constructor
      · rintro ⟨_, hr, _⟩; cases hr
      · rintro ⟨hr, _⟩; exact absurd (hF1.mp hc1) hr
    · rintro ⟨hr, _⟩
      exact absurd (hF1.mp hc1) hr
  · by_cases hc2 : pyOrInt (optMin (db.migration_positions.map
        (fun r => r.migration_index))) 1 = T
        ∧ db.positions.length = db.migration_positions.length
    · have hmig : migrate m T db = ⟨db, [], none, true⟩ := by
        rw [migrate_branches, if_neg hc1, if_pos hc2]
      rw [hmig]
      refine ⟨?_, ?_, ?_⟩
      · constructor
        · rintro ⟨_, hr⟩; cases hr
        · intro hr; exact absurd (hF1.mpr hr) hc1
      · constructor
        · intro _
          exact ⟨fun hr => hc1 (hF1.mpr hr), hF2.mp hc2⟩
        · intro _
          refine ⟨rfl, rfl, ?_⟩
          simp
      · rintro ⟨_, hr2⟩
        exact absurd (hF2.mp hc2) hr2
    · have hmig : migrate m T db = { run_actual_migrations m T db with ret := true } := by
        rw [migrate_branches, if_neg hc1, if_neg hc2, if_neg hF3]
      have herr : (run_actual_migrations m T db).err = none :=
        run_actual_err_none m T db hsub (fun p hp => (hposB p hp).2) hT hc1 hmono
      rw [hmig]
      refine ⟨?_, ?_, ?_⟩
      · constructor
        · rintro ⟨_, hr⟩; cases hr
        · intro hr; exact absurd (hF1.mpr hr) hc1
      · constructor
        · rintro ⟨_, _, hmem⟩
          exact absurd (run_actual_marker m T db) hmem
        · rintro ⟨_, hr2, hr3⟩
          exact absurd (hF2.mpr ⟨hr2, hr3⟩) hc2
      · intro _
        exact ⟨herr, rfl, run_actual_marker m T db⟩

/-- One-position fixture for the C2 witness: up to date at target 1. -/
def dbC2 : Database := ⟨[⟨1, 1, 0, 0, ""⟩], [], [], [], [], [], 1⟩

/-- Witness for C2 at a concrete valid state (branch "no-op, return false"). -/
theorem c2_decision_table_witness :
    (dbC2.positions ≠ []) ∧
      ((((migrate idMigrations 1 dbC2).err = none ∧
            (migrate idMigrations 1 dbC2).ret = false) ↔
          optMin (dbC2.positions.map (fun p => p.migration_index)) = some 1) ∧
        (((migrate idMigrations 1 dbC2).err = none ∧
            (migrate idMigrations 1 dbC2).ret = true ∧
            Action.runActualMigrations ∉ (migrate idMigrations 1 dbC2).trace) ↔
          (optMin (dbC2.positions.map (fun p => p.migration_index)) ≠ some 1 ∧
            optMin (dbC2.migration_positions.map (fun r => r.migration_index)) = some 1 ∧
            dbC2.positions.length = dbC2.migration_positions.length)) ∧
        ((optMin (dbC2.positions.map (fun p => p.migration_index)) ≠ some 1 ∧
            ¬(optMin (dbC2.migration_positions.map (fun r => r.migration_index)) = some 1 ∧
              dbC2.positions.length = dbC2.migration_positions.length)) →
          ((migrate idMigrations 1 dbC2).err = none ∧
            (migrate idMigrations 1 dbC2).ret = true ∧
            Action.runActualMigrations ∈ (migrate idMigrations 1 dbC2).trace))) :=
  ⟨by decide,
    c2_decision_table idMigrations 1 dbC2
      ⟨by decide, by decide, by decide, ⟨by decide, by decide⟩, by decide⟩
      (by decide)⟩

/-! ## C4: a rising migration index aborts the run at that position -/

/-- The start bound `min_position` as computed by `run_actual_migrations`
(the arm that Python would crash on is irrelevant here and mapped to `none`). -/
def code_min_position (T : Int) (db : Database) : Option Nat :=
  match min_position_2 T db, min_position_1 T db with
  | some _, none => none
  | some p2, some v1 => some (max v1 p2)
  | none, x => x

theorem run_actual_eq_runFrom (m : Migrations) (T : Int) (db : Database)
    (h : (min_position_1 T db).isSome) :
    run_actual_migrations m T db = runFrom m T db (code_min_position T db) := by
  obtain ⟨v, hv⟩ := Option.isSome_iff_exists.mp h
  unfold run_actual_migrations code_min_position
  rw [hv]
  cases h2 : min_position_2 T db <;> rfl

theorem processPositions_processed_of_ok (m : Migrations) (T : Int) :
    ∀ (l : List RawPosition) (a0 : Option RawPosition) (db : Database),
      (processPositions m T l a0 db).err = none →
      processedOf (processPositions m T l a0 db).trace
        = l.map (fun r => r.position) := by
  intro l
  induction l with
  | nil => intro a0 db _; rfl
  | cons x rest ih =>
    intro a0 db h
    cases a0 with
    | none =>
      simp only [processPositions, Bool.false_eq_true, if_false] at h ⊢
      simp only [processedOf_cons_process, processedOf_append,
        processedOf_migrate_position, ih (some x) _ h]
      simp
    | some lp =>
      by_cases hc : lp.migration_index < x.migration_index
      · exfalso
        simp only [processPositions, decide_eq_true hc, if_true] at h
        exact Option.some_ne_none _ h
      · simp only [processPositions, decide_eq_false hc, Bool.false_eq_true,
          if_false] at h ⊢
        simp only [processedOf_cons_process, processedOf_append,
          processedOf_migrate_position, ih (some x) _ h]
        simp

/-- C4: let the candidate list split as `l1 ++ p :: l2` with `q` the position
processed immediately before `p` (the anchor when `l1` is empty).  If `p`'s
migration index exceeds `q`'s while the prefix `l1` commits cleanly, the run
raises `MismatchingMigrationIndices` at `p`: its transaction is not committed
(the final state is exactly the state after the prefix) and the prefix's
positions remain committed. -/
theorem c4_rising_index_aborts (m : Migrations) (T : Int) (db : Database)
    (l1 l2 : List RawPosition) (p q : RawPosition)
    (hsome : (min_position_1 T db).isSome)
    (hsplit : migrationCandidates db (code_min_position T db) = l1 ++ p :: l2)
    (hq : lastBefore (migrationAnchor db (code_min_position T db)) l1 = some q)
    (hrise : q.migration_index < p.migration_index)
    (hok : (processPositions m T l1
        (migrationAnchor db (code_min_position T db)) db).err = none) :
    (run_actual_migrations m T db).err = some MigraterError.mismatchingMigrationIndices ∧
      (run_actual_migrations m T db).db
        = (processPositions m T l1 (migrationAnchor db (code_min_position T db)) db).db ∧
      processedOf (run_actual_migrations m T db).trace
        = l1.map (fun r => r.position) := by
  rw [run_actual_eq_runFrom m T db hsome]
  unfold runFrom
  rw [hsplit]
  have h := processPositions_split m T p l2 l1
    (migrationAnchor db (code_min_position T db)) db q hq hrise hok
  refine ⟨h.2.2, h.1, ?_⟩
  have : processedOf (Action.runActualMigrations ::
      (processPositions m T (l1 ++ p :: l2)
        (migrationAnchor db (code_min_position T db)) db).trace)
      = processedOf (processPositions m T (l1 ++ p :: l2)
        (migrationAnchor db (code_min_position T db)) db).trace := by
    simp [processedOf, List.filterMap_cons]
  rw [this, h.2.1, processPositions_processed_of_ok m T l1 _ db hok]

/-- Fixture for C4: position 2 carries a higher migration index (2) than its
predecessor position 1 (index 1). -/
def dbC4 : Database :=
  ⟨[⟨1, 1, 0, 0, ""⟩, ⟨2, 2, 0, 0, ""⟩], [], [], [], [], [], 1⟩

/-- Witness for C4: at target 3 the run over `dbC4` commits position 1 and
aborts at position 2. -/
theorem c4_rising_index_aborts_witness :
    (min_position_1 3 dbC4).isSome = true ∧
      ((run_actual_migrations idMigrations 3 dbC4).err
          = some MigraterError.mismatchingMigrationIndices ∧
        (run_actual_migrations idMigrations 3 dbC4).db
          = (processPositions idMigrations 3 [⟨1, 1, 0, 0, ""⟩]
              (migrationAnchor dbC4 (code_min_position 3 dbC4)) dbC4).db ∧
        processedOf (run_actual_migrations idMigrations 3 dbC4).trace
          = List.map (fun r => r.position) [(⟨1, 1, 0, 0, ""⟩ : RawPosition)]) :=
  ⟨by decide,
    c4_rising_index_aborts idMigrations 3 dbC4 [⟨1, 1, 0, 0, ""⟩] []
      ⟨2, 2, 0, 0, ""⟩ ⟨1, 1, 0, 0, ""⟩ (by decide) (by decide) (by decide)
      (by decide) (by decide)⟩

/-! ## C5 / C6: the step chain of one position -/

theorem intRange_length (a b : Int) : (intRange a b).length = (b - a).toNat := by
  unfold intRange
  simp

theorem readsOf_run_steps_cons (m : Migrations) (T : Int) (P : RawPosition)
    (s : Int) (rest : List Int) (fs : Bool) (db : Database) :
    readsOf (run_steps m T P (s :: rest) fs db).2
      = (if fs then Action.readStagingEvents P.position (readSourceEvents db P.position true)
          else Action.readLiveEvents P.position (readSourceEvents db P.position false))
        :: readsOf (run_steps m T P rest true (step_db m T P s fs db)).2 := by
  cases fs <;>
    by_cases hlast : s + 1 = T <;>
      simp [run_steps, readsOf, hlast, List.filter_cons, List.filter_append,
        Action.isRead]

theorem readsOf_run_steps_length (m : Migrations) (T : Int) (P : RawPosition) :
    ∀ (sl : List Int) (fs : Bool) (db : Database),
      (readsOf (run_steps m T P sl fs db).2).length = sl.length := by
  intro sl
  induction sl with
  | nil => intro fs db; rfl
  | cons s rest ih =>
    intro fs db
    rw [readsOf_run_steps_cons]
    simp [ih true]

theorem readsOf_run_steps_staging (m : Migrations) (T : Int) (P : RawPosition) :
    ∀ (sl : List Int) (db : Database),
      ∀ a ∈ readsOf (run_steps m T P sl true db).2, a.isStagingRead = true := by
  intro sl
  induction sl with
  | nil => intro db a ha; simp [run_steps, readsOf] at ha
  | cons s rest ih =>
    intro db a ha
    rw [readsOf_run_steps_cons] at ha
    rcases List.mem_cons.mp ha with rfl | ha'
    · rfl
    · exact ih _ a ha'

theorem readsOf_run_steps_tail_staging (m : Migrations) (T : Int) (P : RawPosition)
    (sl : List Int) (fs : Bool) (db : Database) :
    ∀ a ∈ (readsOf (run_steps m T P sl fs db).2).drop 1, a.isStagingRead = true := by
  cases sl with
  | nil => intro a ha; simp [run_steps, readsOf] at ha
  | cons s rest =>
    rw [readsOf_run_steps_cons]
    intro a ha
    simp only [List.drop_succ_cons, List.drop_zero] at ha
    exact readsOf_run_steps_staging m T P rest _ a ha

theorem run_steps_append (m : Migrations) (T : Int) (P : RawPosition) :
    ∀ (a b : List Int) (fs : Bool) (db : Database),
      run_steps m T P (a ++ b) fs db
        = ((run_steps m T P b (if a.isEmpty then fs else true)
              (run_steps m T P a fs db).1).1,
           (run_steps m T P a fs db).2 ++
             (run_steps m T P b (if a.isEmpty then fs else true)
               (run_steps m T P a fs db).1).2) := by
  intro a
  induction a with
  | nil =>
    intro b fs db
    simp [run_steps]
  | cons s rest ih =>
    intro b fs db
    simp only [List.cons_append, run_steps, List.isEmpty_cons, List.append_eq]
    rw [ih b true]
    cases hrest : rest.isEmpty <;> simp

/-- Applying `write_new_events` with an empty rewritten list deletes every staging row
of the position. -/
theorem write_new_events_nil_filter (db : Database) (p : Nat) :
    (write_new_events db [] p).migration_events.filter (fun r => r.position = p)
      = [] := by
  unfold write_new_events
  dsimp only
  simp only [List.zip_nil_right, applyEventUpdates, List.length_nil, List.drop_zero]
  rw [if_neg (Nat.not_lt_zero _)]
  by_cases hlen : 0 <
      ((db.migration_events.filter (fun q => q.position = p)).map (fun q => q.id)).length
  · rw [if_pos hlen]
    rw [List.filter_eq_nil_iff]
    intro r hr
    have h1 := (List.mem_filter.mp hr).1
    have h2 := of_decide_eq_true (List.mem_filter.mp hr).2
    simp only [decide_eq_true_eq]
    intro hp
    exact h2 (List.mem_map_of_mem _ (List.mem_filter.mpr ⟨h1, by simp [hp]⟩))
  · rw [if_neg hlen]
    rw [List.length_map] at hlen
    have hfil : db.migration_events.filter (fun q => q.position = p) = [] :=
      List.length_eq_zero.mp (by omega)
    simpa using hfil

theorem map_upsert_id {rs : List MigrationPositionRow} {p : Nat} {mi : Int}
    (h : ∀ x ∈ rs, x.position ≠ p) :
    rs.map (fun r => if r.position = p then (⟨p, mi⟩ : MigrationPositionRow) else r)
      = rs := by
  induction rs with
  | nil => rfl
  | cons r rs ih =>
    simp only [List.map_cons]
    rw [if_neg (h r (List.mem_cons_self r rs)),
      ih (fun x hx => h x (List.mem_cons_of_mem r hx))]

theorem filter_position_eq_nil {rs : List MigrationPositionRow} {p : Nat}
    (h : ∀ x ∈ rs, x.position ≠ p) :
    rs.filter (fun r => r.position = p) = [] := by
  rw [List.filter_eq_nil_iff]
  intro r hr
  simp [h r hr]

theorem upsert_map_filter :
    ∀ (rows : List MigrationPositionRow) (p : Nat) (mi : Int),
      (rows.map (fun r => r.position)).Nodup →
      rows.any (fun r => r.position = p) = true →
      (rows.map (fun r =>
          if r.position = p then (⟨p, mi⟩ : MigrationPositionRow) else r)).filter
        (fun r => r.position = p) = [⟨p, mi⟩] := by
  intro rows
  induction rows with
  | nil => intro p mi _ hany; simp at hany
  | cons r rs ih =>
    intro p mi hnodup hany
    simp only [List.map_cons, List.nodup_cons] at hnodup
    by_cases hrp : r.position = p
    · have hrs : ∀ x ∈ rs, x.position ≠ p := by
        intro x hx hxp
        exact hnodup.1 (by
          rw [hrp, ← hxp]
          exact List.mem_map_of_mem _ hx)
      simp only [List.map_cons, if_pos hrp, List.filter_cons]
      rw [map_upsert_id hrs, filter_position_eq_nil hrs]
      simp
    · have hany' : rs.any (fun r => r.position = p) = true := by
        simp only [List.any_cons] at hany
        simpa [hrp] using hany
      simp only [List.map_cons, if_neg hrp, List.filter_cons]
      simp only [decide_eq_true_eq]
      rw [if_neg (by simp [hrp])]
      exact ih p mi hnodup.2 hany'

theorem upsertMigrationPosition_filter (rows : List MigrationPositionRow)
    (p : Nat) (mi : Int) (hnodup : (rows.map (fun r => r.position)).Nodup) :
    (upsertMigrationPosition rows p mi).filter (fun r => r.position = p)
      = [⟨p, mi⟩] := by
  unfold upsertMigrationPosition
  by_cases hany : rows.any (fun r => r.position = p)
  · rw [if_pos hany]
    exact upsert_map_filter rows p mi hnodup hany
  · rw [if_neg hany]
    rw [List.filter_append]
    have hno : ∀ x ∈ rows, x.position ≠ p := by
      intro x hx hxp
      exact hany (List.any_eq_true.mpr ⟨x, hx, by simp [hxp]⟩)
    rw [filter_position_eq_nil hno]
    simp

theorem run_steps_singleton (m : Migrations) (T : Int) (P : RawPosition)
    (s : Int) (fs : Bool) (db : Database) :
    (run_steps m T P [s] fs db).1 = step_db m T P s fs db := rfl

theorem step_db_staging_empty (m : Migrations) (T : Int) (P : RawPosition)
    (s : Int) (fs : Bool) (db : Database) (hs : s + 1 = T)
    (hEmpty : ∀ evs, m T evs P.to_position_data = []) :
    (step_db m T P s fs db).migration_events.filter
      (fun r => r.position = P.position) = [] := by
  unfold step_db
  dsimp only
  rw [hs, hEmpty, if_pos rfl]
  exact write_new_events_nil_filter _ _

/-- C6: for every position `P` the step chain of `migrate_position` runs
strictly in ascending order over the source indices `S, S+1, …, T-1`, invoking
`migrations[s+1]` and then the old accessor's `move_to_next_position` on every
step, and the new accessor's move exactly on the step whose target equals `T`
(this shape is independent of what the steps return, so it also holds for
empty event lists); if the chain is non-trivial and its last step produces an
empty list, every staging row of `P` is deleted; and `migration_positions[P]`
is set to `T` at the end of the position regardless. -/
theorem c6_step_chain (m : Migrations) (T : Int) (db : Database) (P : RawPosition)
    (lpv : Nat) :
    chainOf (migrate_position m T db P lpv).2
        = chainSteps T P.position
            (intRange (match db.migration_positions.filter
                (fun r => r.position = P.position) with
              | [] => P.migration_index
              | r :: _ => r.migration_index) T) ∧
      ((match db.migration_positions.filter (fun r => r.position = P.position) with
          | [] => P.migration_index
          | r :: _ => r.migration_index) < T →
        (∀ evs, m T evs P.to_position_data = []) →
        (migrate_position m T db P lpv).1.migration_events.filter
          (fun r => r.position = P.position) = []) ∧
      ((db.migration_positions.map (fun r => r.position)).Nodup →
        (migrate_position m T db P lpv).1.migration_positions.filter
          (fun r => r.position = P.position) = [⟨P.position, T⟩]) := by
  have hpart2 : ∀ (S : Int) (fs : Bool), S < T →
      (∀ evs, m T evs P.to_position_data = []) →
      (run_steps m T P (intRange S T) fs db).1.migration_events.filter
        (fun r => r.position = P.position) = [] := by
    intro S fs hS hEmpty
    rw [intRange_append_last hS, run_steps_append, run_steps_singleton]
    exact step_db_staging_empty m T P (T - 1) _ _ (by omega) hEmpty
  have hpart3 : ∀ (S : Int) (fs : Bool),
      (db.migration_positions.map (fun r => r.position)).Nodup →
      (upsertMigrationPosition
          (run_steps m T P (intRange S T) fs db).1.migration_positions
          P.position T).filter (fun r => r.position = P.position)
        = [⟨P.position, T⟩] := by
    intro S fs hnodup
    rw [(run_steps_live m T P (intRange S T) fs db).2]
    exact upsertMigrationPosition_filter _ _ _ hnodup
  cases hmp : db.migration_positions.filter (fun r => r.position = P.position) with
  | nil =>
    unfold migrate_position
    rw [hmp]
    exact ⟨chainOf_run_steps m T P _ false db,
      fun hS hE => hpart2 P.migration_index false hS hE,
      fun hnodup => hpart3 P.migration_index false hnodup⟩
  | cons r rs =>
    unfold migrate_position
    rw [hmp]
    exact ⟨chainOf_run_steps m T P _ true db,
      fun hS hE => hpart2 r.migration_index true hS hE,
      fun hnodup => hpart3 r.migration_index true hnodup⟩

/-- A position fixture for C5/C6: live position 1 at index 1. -/
def PC6 : RawPosition := ⟨1, 1, 0, 0, ""⟩

/-- Staging holds one row for position 1; `migration_positions` is empty. -/
def dbC6 : Database := ⟨[], [], [⟨1, 1, "a", "t", "d", 1⟩], [], [], [], 5⟩

/-- A migration chain every step of which drops all events. -/
def emptyMigrations : Migrations := fun _ _ _ => []

/-- Witness for C6: one step (source 1, target 2) that empties position 1. -/
theorem c6_step_chain_witness :
    chainOf (migrate_position emptyMigrations 2 dbC6 PC6 0).2
        = chainSteps 2 1 (intRange 1 2) ∧
      (migrate_position emptyMigrations 2 dbC6 PC6 0).1.migration_events.filter
        (fun r => r.position = 1) = [] ∧
      (migrate_position emptyMigrations 2 dbC6 PC6 0).1.migration_positions.filter
        (fun r => r.position = 1) = [⟨1, 2⟩] :=
  ⟨(c6_step_chain emptyMigrations 2 dbC6 PC6 0).1,
   (c6_step_chain emptyMigrations 2 dbC6 PC6 0).2.1 (by decide) (fun _ => rfl),
   (c6_step_chain emptyMigrations 2 dbC6 PC6 0).2.2 (by decide)⟩

/-- C5: the source index `S` of position `P` is the `migration_positions`
entry when present (then all reads come from staging), else `P`'s own
migration index (then the first read comes from the live `events` table and
all later reads from staging); every read delivers the rows of `P` ordered by
weight ascending (`readSourceEvents`), and there is one read per step of the
chain `S..T-1`. -/
theorem c5_event_source (m : Migrations) (T : Int) (db : Database) (P : RawPosition)
    (lpv : Nat) :
    (db.migration_positions.filter (fun r => r.position = P.position) = [] →
      (readsOf (migrate_position m T db P lpv).2).length
          = (T - P.migration_index).toNat ∧
        (readsOf (migrate_position m T db P lpv).2).head?
          = (if 0 < (T - P.migration_index).toNat then
              some (Action.readLiveEvents P.position (readSourceEvents db P.position false))
            else none) ∧
        (∀ a ∈ (readsOf (migrate_position m T db P lpv).2).drop 1,
          a.isStagingRead = true)) ∧
    (∀ r rs, db.migration_positions.filter (fun q => q.position = P.position) = r :: rs →
      (readsOf (migrate_position m T db P lpv).2).length
          = (T - r.migration_index).toNat ∧
        (readsOf (migrate_position m T db P lpv).2).head?
          = (if 0 < (T - r.migration_index).toNat then
              some (Action.readStagingEvents P.position (readSourceEvents db P.position true))
            else none) ∧
        (∀ a ∈ readsOf (migrate_position m T db P lpv).2, a.isStagingRead = true)) := by
  constructor
  · intro hmp
    unfold migrate_position
    rw [hmp]
    dsimp only
    refine ⟨?_, ?_, ?_⟩
    · rw [readsOf_run_steps_length, intRange_length]
    · cases hl : intRange P.migration_index T with
      | nil =>
        have h0 : (T - P.migration_index).toNat = 0 := by
          rw [← intRange_length P.migration_index T, hl]
          rfl
        rw [h0]
        rfl
      | cons sv rest =>
        have h0 : 0 < (T - P.migration_index).toNat := by
          rw [← intRange_length P.migration_index T, hl]
          simp
        rw [readsOf_run_steps_cons, if_pos h0]
        rfl
    · exact readsOf_run_steps_tail_staging m T P _ false db
  · intro r rs hmp
    unfold migrate_position
    rw [hmp]
    dsimp only
    refine ⟨?_, ?_, ?_⟩
    · rw [readsOf_run_steps_length, intRange_length]
    · cases hl : intRange r.migration_index T with
      | nil =>
        have h0 : (T - r.migration_index).toNat = 0 := by
          rw [← intRange_length r.migration_index T, hl]
          rfl
        rw [h0]
        rfl
      | cons sv rest =>
        have h0 : 0 < (T - r.migration_index).toNat := by
          rw [← intRange_length r.migration_index T, hl]
          simp
        rw [readsOf_run_steps_cons, if_pos h0]
        rfl
    · exact readsOf_run_steps_staging m T P _ db

/-- Witness for C5 at a position with no staged entry: exactly one read, from
the live events table, weight-ordered. -/
theorem c5_event_source_witness :
    dbC6.migration_positions.filter (fun r => r.position = PC6.position) = [] ∧
      ((readsOf (migrate_position idMigrations 2 dbC6 PC6 0).2).length
          = ((2 : Int) - 1).toNat ∧
        (readsOf (migrate_position idMigrations 2 dbC6 PC6 0).2).head?
          = (if 0 < ((2 : Int) - 1).toNat then
              some (Action.readLiveEvents PC6.position
                (readSourceEvents dbC6 PC6.position false))
            else none) ∧
        (∀ a ∈ (readsOf (migrate_position idMigrations 2 dbC6 PC6 0).2).drop 1,
          a.isStagingRead = true)) :=
  ⟨by decide, (c5_event_source idMigrations 2 dbC6 PC6 0).1 (by decide)⟩

/-! ## C3: the diff-write of `write_new_events` -/

def defaultEvent : BaseEvent := ⟨"", "", ""⟩

theorem updateEventRow_ids (rows : List EventRow) (rid : Nat) (e : BaseEvent) (w : Nat) :
    (updateEventRow rows rid e w).map (fun r => r.id) = rows.map (fun r => r.id) := by
  unfold updateEventRow
  rw [List.map_map]
  apply List.map_congr_left
  intro r _
  dsimp only [Function.comp]
  split <;> rfl

theorem mem_updateEventRow_of_ne {rows : List EventRow} {r : EventRow} (rid : Nat)
    (e : BaseEvent) (w : Nat) (hr : r ∈ rows) (hne : r.id ≠ rid) :
    r ∈ updateEventRow rows rid e w := by
  unfold updateEventRow
  have h := List.mem_map_of_mem (fun q : EventRow =>
    if q.id = rid then { q with fqid := e.fqid, type := e.type, data := e.data, weight := w }
    else q) hr
  simpa [hne] using h

theorem mem_updateEventRow_of_eq {rows : List EventRow} {r : EventRow} (rid : Nat)
    (e : BaseEvent) (w : Nat) (hr : r ∈ rows) (heq : r.id = rid) :
    { r with fqid := e.fqid, type := e.type, data := e.data, weight := w }
      ∈ updateEventRow rows rid e w := by
  unfold updateEventRow
  have h := List.mem_map_of_mem (fun q : EventRow =>
    if q.id = rid then { q with fqid := e.fqid, type := e.type, data := e.data, weight := w }
    else q) hr
  simpa [heq] using h

theorem applyEventUpdates_preserve :
    ∀ (l : List (Nat × BaseEvent)) (w : Nat) (rows : List EventRow) (r : EventRow),
      r ∈ rows → r.id ∉ l.map Prod.fst → r ∈ applyEventUpdates rows l w := by
  intro l
  induction l with
  | nil => intro w rows r hr _; exact hr
  | cons p rest ih =>
    intro w rows r hr hid
    obtain ⟨rid, e⟩ := p
    simp only [List.map_cons, List.mem_cons, not_or] at hid
    simp only [applyEventUpdates]
    exact ih (w + 1) _ r (mem_updateEventRow_of_ne rid e w hr hid.1) hid.2

theorem zip_getD (a : List Nat) (b : List BaseEvent) :
    ∀ (i : Nat), i < a.length → i < b.length →
      (a.zip b).getD i (0, defaultEvent) = (a.getD i 0, b.getD i defaultEvent) := by
  induction a generalizing b with
  | nil => intro i hi _; simp at hi
  | cons x xs ih =>
    intro i hi hib
    cases b with
    | nil => simp at hib
    | cons y ys =>
      cases i with
      | zero => rfl
      | succ j =>
        simp only [List.zip_cons_cons, List.getD_cons_succ]
        exact ih ys j (by simpa using hi) (by simpa using hib)

theorem applyEventUpdates_spec (r0 : EventRow) :
    ∀ (l : List (Nat × BaseEvent)) (w : Nat) (rows : List EventRow) (j : Nat),
      j < l.length →
      (l.map Prod.fst).Nodup →
      r0 ∈ rows → r0.id = (l.getD j (0, defaultEvent)).1 →
      ∃ r ∈ applyEventUpdates rows l w,
        r.id = r0.id ∧ r.position = r0.position ∧
        r.fqid = (l.getD j (0, defaultEvent)).2.fqid ∧
        r.type = (l.getD j (0, defaultEvent)).2.type ∧
        r.data = (l.getD j (0, defaultEvent)).2.data ∧
        r.weight = w + j := by
  intro l
  induction l with
  | nil => intro w rows j hj; simp at hj
  | cons p rest ih =>
    intro w rows j hj hnodup hr0 hid
    obtain ⟨rid, e⟩ := p
    simp only [List.map_cons, List.nodup_cons] at hnodup
    cases j with
    | zero =>
      simp only [List.getD_cons_zero] at hid ⊢
      simp only [applyEventUpdates]
      refine ⟨{ r0 with fqid := e.fqid, type := e.type, data := e.data, weight := w },
        ?_, rfl, rfl, rfl, rfl, rfl, by simp⟩
      apply applyEventUpdates_preserve rest (w + 1)
      · exact mem_updateEventRow_of_eq rid e w hr0 hid
      · simpa [hid] using hnodup.1
    | succ j' =>
      simp only [List.getD_cons_succ] at hid ⊢
      simp only [applyEventUpdates]
      have hne : r0.id ≠ rid := by
        intro hrr
        apply hnodup.1
        have hmem : (rest.getD j' (0, defaultEvent)).1 ∈ rest.map Prod.fst := by
          have hg : rest.getD j' (0, defaultEvent) ∈ rest := by
            rw [List.getD_eq_getElem _ _ (by simpa using hj)]
            exact List.getElem_mem _
          exact List.mem_map_of_mem _ hg
        rw [← hid, hrr] at hmem
        exact hmem
      have hr0' : r0 ∈ updateEventRow rows rid e w :=
        mem_updateEventRow_of_ne rid e w hr0 hne
      obtain ⟨r, hrmem, h1, h2, h3, h4, h5, h6⟩ :=
        ih (w + 1) (updateEventRow rows rid e w) j' (by simpa using hj)
          hnodup.2 hr0' hid
      exact ⟨r, hrmem, h1, h2, h3, h4, h5, by omega⟩

theorem insertEventRows_preserve (P : Nat) :
    ∀ (l : List BaseEvent) (w : Nat) (rows : List EventRow) (nid : Nat) (r : EventRow),
      r ∈ rows → r ∈ (insertEventRows P rows nid l w).1 := by
  intro l
  induction l with
  | nil => intro w rows nid r hr; exact hr
  | cons e rest ih =>
    intro w rows nid r hr
    simp only [insertEventRows]
    exact ih (w + 1) _ (nid + 1) r (List.mem_append_left _ hr)

theorem insertEventRows_spec (P : Nat) :
    ∀ (l : List BaseEvent) (w : Nat) (rows : List EventRow) (nid : Nat) (j : Nat),
      j < l.length →
      ∃ r ∈ (insertEventRows P rows nid l w).1,
        r.position = P ∧
        r.fqid = (l.getD j defaultEvent).fqid ∧
        r.type = (l.getD j defaultEvent).type ∧
        r.data = (l.getD j defaultEvent).data ∧
        r.weight = w + j := by
  intro l
  induction l with
  | nil => intro w rows nid j hj; simp at hj
  | cons e rest ih =>
    intro w rows nid j hj
    cases j with
    | zero =>
      simp only [List.getD_cons_zero, insertEventRows]
      refine ⟨⟨nid, P, e.fqid, e.type, e.data, w⟩, ?_, rfl, rfl, rfl, rfl, by simp⟩
      exact insertEventRows_preserve P rest (w + 1) _ (nid + 1) _
        (List.mem_append_right _ (List.mem_singleton_self _))
    | succ j' =>
      simp only [List.getD_cons_succ, insertEventRows]
      obtain ⟨r, hrmem, h1, h2, h3, h4, h5⟩ := ih (w + 1) _ (nid + 1) j' (by simpa using hj)
      exact ⟨r, hrmem, h1, h2, h3, h4, by omega⟩

theorem getD_mem_take {l : List Nat} {i n : Nat} (hi : i < n) (hl : i < l.length) :
    l.getD i 0 ∈ l.take n := by
  induction l generalizing i n with
  | nil => simp at hl
  | cons x xs ih =>
    cases n with
    | zero => omega
    | succ n' =>
      cases i with
      | zero => simp
      | succ i' =>
        simp only [List.getD_cons_succ, List.take_succ_cons, List.mem_cons]
        exact Or.inr (ih (by omega) (by simpa using hl))

theorem getD_drop (l : List BaseEvent) (n j : Nat) (d : BaseEvent) :
    (l.drop n).getD j d = l.getD (n + j) d := by
  induction l generalizing n with
  | nil => simp
  | cons x xs ih =>
    cases n with
    | zero => simp
    | succ n' =>
      simp only [List.drop_succ_cons, List.getD_cons_succ, Nat.succ_add]
      exact ih n'

/-- SQL `select id from migration_events where position=%s`: the staging row ids
of a position, in table order (the source query has no `ORDER BY`). -/
def stagingRowIds (db : Database) (P : Nat) : List Nat :=
  (db.migration_events.filter (fun r => r.position = P)).map (fun r => r.id)

/-- The staging table after the update and delete phases of
`write_new_events`. -/
def stagingUpdated (db : Database) (ne : List BaseEvent) (P : Nat) : List EventRow :=
  if ne.length < (stagingRowIds db P).length then
    (applyEventUpdates db.migration_events ((stagingRowIds db P).zip ne) 1).filter
      (fun r => r.id ∉ (stagingRowIds db P).drop ne.length)
  else applyEventUpdates db.migration_events ((stagingRowIds db P).zip ne) 1

/-- The function `write_new_events` split into its three phases (definitional). -/
theorem write_new_events_events_eq (db : Database) (ne : List BaseEvent) (P : Nat) :
    (write_new_events db ne P).migration_events =
      if (stagingRowIds db P).length < ne.length then
        (insertEventRows P (stagingUpdated db ne P) db.next_event_id
          (ne.drop (stagingRowIds db P).length) ((stagingRowIds db P).length + 1)).1
      else stagingUpdated db ne P := by
  unfold write_new_events stagingUpdated stagingRowIds
  dsimp only
  split <;> rfl

/-- C3 (amended): `write_new_events` takes `old_ids` as the staging row ids of
`P` in table order — the `SELECT` carries no `ORDER BY` — updates row
`old_ids[i]` in place to `new_events[i]` with `weight = i + 1` for
`i < min(|old_ids|, |new_events|)`, deletes the rows `old_ids[|new_events|..]`
when there are more old rows than new events, and appends fresh staging rows
with `weight = i + 1` for the remaining new events, so surviving row ids are
stable. -/
theorem c3_diff_write (db : Database) (new_events : List BaseEvent) (P : Nat)
    (hnodup : (db.migration_events.map (fun r => r.id)).Nodup) :
    (∀ i, i < min (stagingRowIds db P).length new_events.length →
      ∃ r ∈ (write_new_events db new_events P).migration_events,
        r.id = (stagingRowIds db P).getD i 0 ∧
        r.position = P ∧
        r.fqid = (new_events.getD i defaultEvent).fqid ∧
        r.type = (new_events.getD i defaultEvent).type ∧
        r.data = (new_events.getD i defaultEvent).data ∧
        r.weight = i + 1) ∧
    (∀ d ∈ (stagingRowIds db P).drop new_events.length,
      ∀ r ∈ (write_new_events db new_events P).migration_events, r.id ≠ d) ∧
    (∀ i, (stagingRowIds db P).length ≤ i → i < new_events.length →
      ∃ r ∈ (write_new_events db new_events P).migration_events,
        r.position = P ∧
        r.fqid = (new_events.getD i defaultEvent).fqid ∧
        r.type = (new_events.getD i defaultEvent).type ∧
        r.data = (new_events.getD i defaultEvent).data ∧
        r.weight = i + 1) := by
  have hold_nodup : (stagingRowIds db P).Nodup :=
    ((List.filter_sublist _).map _).nodup hnodup
  have hlen_ids : (stagingRowIds db P).length
      = (db.migration_events.filter (fun r => r.position = P)).length := by
    unfold stagingRowIds
    rw [List.length_map]
  refine ⟨?_, ?_, ?_⟩
  · -- updates
    intro i hi
    have hi_old : i < (stagingRowIds db P).length := lt_of_lt_of_le hi (min_le_left _ _)
    have hi_new : i < new_events.length := lt_of_lt_of_le hi (min_le_right _ _)
    have hfl : i < (db.migration_events.filter (fun r => r.position = P)).length := by
      omega
    have hr0filter : (db.migration_events.filter (fun r => r.position = P)).get ⟨i, hfl⟩
        ∈ db.migration_events.filter (fun r => r.position = P) :=
      List.get_mem _ _ _
    have hr0mem : (db.migration_events.filter (fun r => r.position = P)).get ⟨i, hfl⟩
        ∈ db.migration_events :=
      List.mem_of_mem_filter hr0filter
    have hr0pos : ((db.migration_events.filter (fun r => r.position = P)).get
        ⟨i, hfl⟩).position = P := by
      have h := List.of_mem_filter hr0filter
      simpa using h
    have hr0id : ((db.migration_events.filter (fun r => r.position = P)).get
        ⟨i, hfl⟩).id = (stagingRowIds db P).getD i 0 := by
      unfold stagingRowIds
      rw [List.getD_eq_getElem _ _ (by rw [List.length_map]; exact hfl),
        List.getElem_map, List.get_eq_getElem]
    have hzip : ((stagingRowIds db P).zip new_events).getD i (0, defaultEvent)
        = ((stagingRowIds db P).getD i 0, new_events.getD i defaultEvent) :=
      zip_getD _ _ i hi_old hi_new
    obtain ⟨r, hrmem, h1, h2, h3, h4, h5, h6⟩ :=
      applyEventUpdates_spec
        ((db.migration_events.filter (fun r => r.position = P)).get ⟨i, hfl⟩)
        ((stagingRowIds db P).zip new_events) 1 db.migration_events i
        (by rw [List.length_zip]; omega)
        (by
          rw [map_fst_zip_eq_take]
          exact (List.take_sublist _ _).nodup hold_nodup)
        hr0mem
        (by rw [hzip]; exact hr0id)
    rw [hzip] at h3 h4 h5
    have hid_val : r.id = (stagingRowIds db P).getD i 0 := h1.trans hr0id
    have hnotdrop : r.id ∉ (stagingRowIds db P).drop new_events.length := by
      intro hmemdrop
      have hmemtake : r.id ∈ (stagingRowIds db P).take new_events.length := by
        rw [hid_val]
        exact getD_mem_take hi_new hi_old
      exact hold_nodup.rel_of_mem_take_of_mem_drop hmemtake hmemdrop rfl
    rw [write_new_events_events_eq]
    refine ⟨r, ?_, hid_val, h2.trans hr0pos, h3, h4, h5, by omega⟩
    have hmem2 : r ∈ stagingUpdated db new_events P := by
      unfold stagingUpdated
      by_cases hc1 : new_events.length < (stagingRowIds db P).length
      · rw [if_pos hc1]
        exact List.mem_filter.mpr ⟨hrmem, by simpa using hnotdrop⟩
      · rw [if_neg hc1]
        exact hrmem
    by_cases hc2 : (stagingRowIds db P).length < new_events.length
    · rw [if_pos hc2]
      exact insertEventRows_preserve P _ _ _ _ r hmem2
    · rw [if_neg hc2]
      exact hmem2
  · -- deletions
    intro d hd r hr
    rw [write_new_events_events_eq] at hr
    by_cases hc1 : new_events.length < (stagingRowIds db P).length
    · have hc2 : ¬ (stagingRowIds db P).length < new_events.length := by omega
      rw [if_neg hc2] at hr
      unfold stagingUpdated at hr
      rw [if_pos hc1] at hr
      have hnot := of_decide_eq_true (List.mem_filter.mp hr).2
      intro heq
      exact hnot (heq ▸ hd)
    · exfalso
      have hdrop : (stagingRowIds db P).drop new_events.length = [] :=
        List.drop_eq_nil_of_le (by omega)
      rw [hdrop] at hd
      simp at hd
  · -- insertions
    intro i hge hlt
    have hc2 : (stagingRowIds db P).length < new_events.length := by omega
    rw [write_new_events_events_eq, if_pos hc2]
    obtain ⟨r, hrmem, h1, h2, h3, h4, h5⟩ :=
      insertEventRows_spec P (new_events.drop (stagingRowIds db P).length)
        ((stagingRowIds db P).length + 1) (stagingUpdated db new_events P)
        db.next_event_id (i - (stagingRowIds db P).length)
        (by rw [List.length_drop]; omega)
    rw [getD_drop] at h2 h3 h4
    have hidx : (stagingRowIds db P).length + (i - (stagingRowIds db P).length) = i := by
      omega
    rw [hidx] at h2 h3 h4
    exact ⟨r, hrmem, h1, h2, h3, h4, by omega⟩

/-- C3 counterexample: in `dbC3` the staging rows of position 1 in weight
order are ids `[3, 5]`, so the claim ("old_ids ordered by weight ascending")
prescribes updating row 3 and deleting row 5 for a single rewritten event;
the code reads the ids in table order `[5, 3]`, updates row 5 and deletes
row 3. -/
theorem c3_counterexample :
    (sortByKey (fun r => r.weight) (dbC3.migration_events.filter
        (fun r => r.position = 1))).map (fun r => r.id) = [3, 5] ∧
      (write_new_events dbC3 [⟨"x", "y", "z"⟩] 1).migration_events.map
        (fun r => r.id) = [5] := by
  decide

/-- Witness for C3 at the concrete staging table `dbC3`. -/
theorem c3_diff_write_witness :
    ((dbC3.migration_events.map (fun r => r.id)).Nodup) ∧
      ((∀ i, i < min (stagingRowIds dbC3 1).length
            ([(⟨"x", "y", "z"⟩ : BaseEvent)]).length →
        ∃ r ∈ (write_new_events dbC3 [⟨"x", "y", "z"⟩] 1).migration_events,
          r.id = (stagingRowIds dbC3 1).getD i 0 ∧
          r.position = 1 ∧
          r.fqid = (([(⟨"x", "y", "z"⟩ : BaseEvent)]).getD i defaultEvent).fqid ∧
          r.type = (([(⟨"x", "y", "z"⟩ : BaseEvent)]).getD i defaultEvent).type ∧
          r.data = (([(⟨"x", "y", "z"⟩ : BaseEvent)]).getD i defaultEvent).data ∧
          r.weight = i + 1) ∧
      (∀ d ∈ (stagingRowIds dbC3 1).drop ([(⟨"x", "y", "z"⟩ : BaseEvent)]).length,
        ∀ r ∈ (write_new_events dbC3 [⟨"x", "y", "z"⟩] 1).migration_events, r.id ≠ d) ∧
      (∀ i, (stagingRowIds dbC3 1).length ≤ i →
        i < ([(⟨"x", "y", "z"⟩ : BaseEvent)]).length →
        ∃ r ∈ (write_new_events dbC3 [⟨"x", "y", "z"⟩] 1).migration_events,
          r.position = 1 ∧
          r.fqid = (([(⟨"x", "y", "z"⟩ : BaseEvent)]).getD i defaultEvent).fqid ∧
          r.type = (([(⟨"x", "y", "z"⟩ : BaseEvent)]).getD i defaultEvent).type ∧
          r.data = (([(⟨"x", "y", "z"⟩ : BaseEvent)]).getD i defaultEvent).data ∧
          r.weight = i + 1)) :=
  ⟨by decide, c3_diff_write dbC3 [⟨"x", "y", "z"⟩] 1 (by decide)⟩

end Datastore
